import Mathlib

/-!
Verification development for the RCW-Processing-Suite classification and
aggregation core (`app/services/category_mapper.py`, `app/services/aggregator.py`).

The Python code is shallowly embedded: strings are Lean `String`s manipulated
through their underlying `List Char` (all data handled by the code is ASCII, so
Python's Unicode-aware `str.upper` coincides with `Char.toUpper`), Python
`dict`s become association lists with Python-dict insertion semantics
(overwrite in place, append when new), Python `float` dollar amounts become
exact rationals `Rat` (the claims under study are accounting identities, not
floating-point rounding facts), and the handful of regular expressions used by
the source are compiled by hand into executable scanners that follow the
regex's (deterministic, since the character classes involved never overlap
with the closing delimiters) matching behaviour.

Python `while` loops with no structural bound (the uniqueness-counter loop in
`create_category_name`) are embedded with an explicit fuel that provably
suffices (see `createLoop_fresh`).
-/

namespace RCW

/-! ## Character classes (Python `re` semantics, ASCII) -/

/-- Python regex `\w` (ASCII): letters, digits and underscore. -/
def isPyWord (c : Char) : Bool := c.isAlphanum || c == '_'

/-- Python regex `\s` / `str.strip` whitespace (the ASCII fragment). -/
def isPySpace (c : Char) : Bool :=
  c == ' ' || c == '\t' || c == '\n' || c == '\r' || c == '\x0b' || c == '\x0c'

/-- Separator characters replaced by spaces in `normalize_task_text`
(the Python regex character class of dash, slash, underscore, em-dash). -/
def isSep (c : Char) : Bool := c == '-' || c == '/' || c == '_' || c == '—'

/-- The dash characters of the Python regex `[-–—]`. -/
def isDash (c : Char) : Bool := c == '-' || c == '–' || c == '—'

/-! ## List-level string operations -/

/-- Drop the trailing run of characters satisfying `p`. -/
def dropTrail (p : Char → Bool) (l : List Char) : List Char :=
  (l.reverse.dropWhile p).reverse

/-- Python `str.strip()`: drop leading and trailing whitespace. -/
def stripL (l : List Char) : List Char :=
  dropTrail isPySpace (l.dropWhile isPySpace)

/-- Python `re.sub(r'\s+', ' ', ·)`: collapse every whitespace run to one space. -/
def collapseWS : List Char → List Char
  | [] => []
  | [c] => if isPySpace c then [' '] else [c]
  | c :: d :: rest =>
    if isPySpace c then
      if isPySpace d then collapseWS (d :: rest)
      else ' ' :: collapseWS (d :: rest)
    else c :: collapseWS (d :: rest)

/-- Substring test (Python `sub in hay`). -/
def hasSubL (hay sub : List Char) : Bool :=
  hay.tails.any (fun t => sub.isPrefixOf t)

/-- Word-boundary token search, Python `re.search(r'\bTOK\b', hay)` for a token
consisting of word characters: some occurrence of `tok` whose neighbours
(if any) are non-word characters. `prev` carries the character just before
the current position. -/
def hasWordTokAux (tok : List Char) : Option Char → List Char → Bool
  | _, [] => false
  | prev, c :: rest =>
    (decide ((match prev with | none => true | some p => !isPyWord p) = true) &&
     tok.isPrefixOf (c :: rest) &&
     (match (c :: rest).drop tok.length with
      | [] => true
      | d :: _ => !isPyWord d)) ||
    hasWordTokAux tok (some c) rest

def hasWordTokL (hay tok : List Char) : Bool :=
  hasWordTokAux tok none hay

/-! ## String-level wrappers -/

/-- Python `str.upper()` (ASCII data). -/
def pyUpper (s : String) : String := String.mk (s.data.map Char.toUpper)

/-- Python `str.strip()`. -/
def pyStrip (s : String) : String := String.mk (stripL s.data)

/-- Python `sub in hay`. -/
def pyContains (hay sub : String) : Bool := hasSubL hay.data sub.data

/-- Python `re.search(r'\bTOK\b', hay)` for a word-character token. -/
def pyWordTok (hay tok : String) : Bool := hasWordTokL hay.data tok.data

/-- Python `hay.startswith(pre)`. -/
def pyStartsWith (hay pre : String) : Bool := pre.data.isPrefixOf hay.data

/-- Python `hay.endswith(suf)`. -/
def pyEndsWith (hay suf : String) : Bool := suf.data.isSuffixOf hay.data

/-- Python `str.rstrip(chars)`. -/
def pyRStrip (s : String) (chars : List Char) : String :=
  String.mk (dropTrail (fun c => chars.contains c) s.data)

/-- Python `str.lstrip(chars)`. -/
def pyLStrip (s : String) (chars : List Char) : String :=
  String.mk (s.data.dropWhile (fun c => chars.contains c))

/-! ## Decimal rendering of the uniqueness counter (Python `str(int)`) -/

/-- Decimal digits of a positive number, least significant first. -/
def natRevDigits : Nat → List Char
  | 0 => []
  | n + 1 =>
    Char.ofNat (48 + (n + 1) % 10) :: natRevDigits ((n + 1) / 10)
decreasing_by exact Nat.div_lt_self (Nat.succ_pos n) (by decide)

/-- Python `str(n)` for a natural number. -/
def natStr (n : Nat) : String :=
  if n = 0 then "0" else String.mk (natRevDigits n).reverse

/-! ## `canonical` and `normalize_task_text` (category_mapper.py lines 68-102) -/

/-- `canonical(s)`: uppercase, strip, remove the leading and trailing runs of
non-word characters (the regex with the start-anchored and end-anchored
alternatives), collapse whitespace. -/
def canonical (s : String) : String :=
  if s = "" then "" else
  String.mk (collapseWS (dropTrail (fun c => !isPyWord c)
    ((stripL (s.data.map Char.toUpper)).dropWhile (fun c => !isPyWord c))))

/-- `normalize_task_text(text)`: uppercase, separators to spaces (ampersand
kept), collapse whitespace, strip. -/
def normalize_task_text (text : String) : String :=
  if text = "" then "" else
  String.mk (stripL (collapseWS
    ((text.data.map Char.toUpper).map (fun c => if isSep c then ' ' else c))))

/-! ## `extract_scope_fragment` (category_mapper.py lines 105-143)

Each Python `re.sub` pass becomes a fuel-indexed scanner; the fuel is the
input length, which bounds the number of positions the regex engine visits,
and every recursive call strictly shrinks the list, so the fuel never runs
out on the calls made here. -/

/-- Strip a leading ISO date (4 digits, dash or slash, 2 digits, dash or
slash, 2 digits) plus following whitespace. -/
def stripISODate (l : List Char) : List Char :=
  match l with
  | a :: b :: c :: d :: s1 :: e :: f :: s2 :: g :: h :: rest =>
    if a.isDigit && b.isDigit && c.isDigit && d.isDigit &&
       (s1 == '-' || s1 == '/') && e.isDigit && f.isDigit &&
       (s2 == '-' || s2 == '/') && g.isDigit && h.isDigit then
      rest.dropWhile isPySpace
    else l
  | _ => l

/-- Strip a leading US date (2 digits, separator, 2 digits, separator,
4 digits) plus following whitespace. -/
def stripUSDate (l : List Char) : List Char :=
  match l with
  | a :: b :: s1 :: c :: d :: s2 :: e :: f :: g :: h :: rest =>
    if a.isDigit && b.isDigit && (s1 == '-' || s1 == '/') &&
       c.isDigit && d.isDigit && (s2 == '-' || s2 == '/') &&
       e.isDigit && f.isDigit && g.isDigit && h.isDigit then
      rest.dropWhile isPySpace
    else l
  | _ => l

/-- Strip a leading case-insensitive `PAINTING`, optional whitespace, an
optional single dash, optional whitespace. -/
def stripPainting (l : List Char) : List Char :=
  if (l.take 8).map Char.toUpper = "PAINTING".data then
    let r := (l.drop 8).dropWhile isPySpace
    let r2 := match r with
      | c :: t => if isDash c then t else r
      | [] => r
    r2.dropWhile isPySpace
  else l

/-- Characters allowed inside a bracket code: word characters, whitespace,
dash. -/
def isBracketClass (c : Char) : Bool := isPyWord c || isPySpace c || c == '-'

/-- Remove every bracketed code `[` (one or more class characters) `]`,
scanning left to right as `re.sub` does. -/
def stripBracketsF : Nat → List Char → List Char
  | 0, l => l
  | _ + 1, [] => []
  | fuel + 1, c :: rest =>
    if c = '[' then
      let run := rest.takeWhile isBracketClass
      match rest.drop run.length with
      | ']' :: tail =>
        if run.isEmpty then c :: stripBracketsF fuel rest
        else stripBracketsF fuel tail
      | _ => c :: stripBracketsF fuel rest
    else c :: stripBracketsF fuel rest

/-- Remove every parenthesised numeric job code of five or more digits. -/
def stripParenCodesF : Nat → List Char → List Char
  | 0, l => l
  | _ + 1, [] => []
  | fuel + 1, c :: rest =>
    if c = '(' then
      let run := rest.takeWhile Char.isDigit
      match rest.drop run.length with
      | ')' :: tail =>
        if run.length ≥ 5 then stripParenCodesF fuel tail
        else c :: stripParenCodesF fuel rest
      | _ => c :: stripParenCodesF fuel rest
    else c :: stripParenCodesF fuel rest

/-- Remove every case-insensitive occurrence of the literal `pat`
(given uppercased). -/
def removeAllCI (pat : List Char) : Nat → List Char → List Char
  | 0, l => l
  | _ + 1, [] => []
  | fuel + 1, c :: rest =>
    if (((c :: rest).take pat.length).map Char.toUpper) = pat then
      removeAllCI pat fuel ((c :: rest).drop pat.length)
    else c :: removeAllCI pat fuel rest

/-- Strip one trailing dash together with the whitespace around it
(the end-anchored Python pattern: whitespace, one dash, whitespace). -/
def stripTrailingDash (l : List Char) : List Char :=
  let r := l.reverse.dropWhile isPySpace
  match r with
  | c :: t => if isDash c then (t.dropWhile isPySpace).reverse else l
  | [] => l

/-- `extract_scope_fragment(task_text)`. -/
def extract_scope_fragment (task_text : String) : String :=
  if task_text = "" then "" else
  let t := stripL task_text.data
  let t := stripISODate t
  let t := stripUSDate t
  let t := stripPainting t
  let t := stripBracketsF t.length t
  let t := stripParenCodesF t.length t
  let t := removeAllCI "(INT)".data t.length t
  let t := removeAllCI "(EXT)".data t.length t
  let t := stripTrailingDash t
  let t := collapseWS t
  String.mk (stripL t)

/-! ## `parse_signals` (category_mapper.py lines 146-234) -/

structure TaskSignals where
  is_ext : Bool := false
  is_int : Bool := false
  is_ua : Bool := false
  is_op : Bool := false
  is_ls : Bool := false
  keyword_undercoat : Bool := false
  keyword_prime : Bool := false
  keyword_touchup : Bool := false
  keyword_rollwalls : Bool := false
  keyword_baseshoe : Bool := false
  matched_keywords : List String := []
deriving DecidableEq

/-- First alias of the list that occurs in `n` as a plain substring. -/
def firstSubHit (n : String) : List String → Option String
  | [] => none
  | k :: ks => if pyContains n k then some k else firstSubHit n ks

/-- First alias of the list that occurs in `n` as a word-boundary token. -/
def firstWordHit (n : String) : List String → Option String
  | [] => none
  | k :: ks => if pyWordTok n k then some k else firstWordHit n ks

/-- First touch-up alias matching Python's dash-normalised-or-raw substring
test. -/
def firstTouchHit (n : String) : List String → Option String
  | [] => none
  | k :: ks =>
    if pyContains n (String.mk (k.data.map (fun c => if c = '-' then ' ' else c)))
       || pyContains n k
    then some k else firstTouchHit n ks

/-- The roll-walls regex after the leading `ROLL`: word characters were
consumed, at least one whitespace seen; try `WALL` or `CEILING` at the
current word start, else consume one intervening word (at most ten) and
recurse. -/
def chkWallF : Nat → Nat → List Char → Bool
  | 0, _, _ => false
  | fuel + 1, k, l =>
    "WALL".data.isPrefixOf l || "CEILING".data.isPrefixOf l ||
    (decide (k < 10) &&
      (let w := l.takeWhile isPyWord
       if w.isEmpty then false
       else
         let r := l.drop w.length
         let s := r.takeWhile isPySpace
         if s.isEmpty then false
         else chkWallF fuel (k + 1) (r.drop s.length)))

/-- Search for the roll-walls regex (`ROLL`, word characters, whitespace, up
to ten intervening words, then `WALL`, `WALLS` or `CEILING`) anywhere. -/
def rollSearch : List Char → Bool
  | [] => false
  | c :: rest =>
    (if "ROLL".data.isPrefixOf (c :: rest) then
       let r := ((c :: rest).drop 4).dropWhile isPyWord
       let s := r.takeWhile isPySpace
       if s.isEmpty then false else chkWallF r.length 0 (r.drop s.length)
     else false) ||
    rollSearch rest

def undercoat_keywords : List String := ["UNDERCOAT", "FIRST COAT"]

def prime_keywords : List String :=
  ["PRIME", "PRIMER", "PRIMING", "SEAL", "SEALER",
   "SAND", "BLOCK", "BLOCKOUT", "PREP", "CAULK", "PATCH", "FASCIA"]

def touchup_keywords : List String :=
  ["TOUCH UP", "TOUCHUP", "TOUCH-UP", "PUNCH", "AFTER CARPET"]

def baseshoe_keywords : List String :=
  ["BASE SHOE", "BASEBOARD", "SHOE MOLD", "SHOE MOULD"]

/-- `parse_signals(task_text)`. -/
def parse_signals (task_text : String) : TaskSignals :=
  if task_text = "" then {} else
  let n := normalize_task_text task_text
  let (is_ext, mkExt) :=
    if pyContains n "(EXT)" then (true, ["(EXT)"])
    else if pyWordTok n "EXT" && !pyContains n "EXTERIOR" then (true, ["EXT token"])
    else if pyContains n "EXTERIOR" then (true, ["EXTERIOR"])
    else (false, [])
  let (is_int, mkInt) :=
    if pyContains n "(INT)" then (true, ["(INT)"])
    else if pyWordTok n "INT" && !pyContains n "INTERIOR" then (true, ["INT token"])
    else if pyContains n "INTERIOR" then (true, ["INTERIOR"])
    else (false, [])
  let (is_ua, mkUa) :=
    if pyContains n "[UA]" || pyWordTok n "UA" then (true, ["UA"]) else (false, [])
  let (is_op, mkOp) := if pyContains n "[OP]" then (true, ["[OP]"]) else (false, [])
  let (is_ls, mkLs) := if pyContains n "[LS]" then (true, ["[LS]"]) else (false, [])
  let (kw_uc, mkUc) :=
    match firstSubHit n undercoat_keywords with
    | some k => (true, ["undercoat:" ++ k])
    | none => (false, [])
  let (kw_pr, mkPr) :=
    match firstWordHit n prime_keywords with
    | some k => (true, ["prime:" ++ k])
    | none => (false, [])
  let (kw_tu, mkTu) :=
    match firstTouchHit n touchup_keywords with
    | some k => (true, ["touchup:" ++ k])
    | none => (false, [])
  let (kw_rw, mkRw) :=
    if rollSearch n.data then (true, ["rollwalls:ROLL near WALL/CEILING"])
    else if pyContains n "ROLL WALL" || pyContains n "ROLLED WALL" then
      (true, ["rollwalls:ROLL WALL"])
    else (false, [])
  let (kw_bs, mkBs) :=
    match firstSubHit n baseshoe_keywords with
    | some k => (true, ["baseshoe:" ++ k])
    | none => (false, [])
  { is_ext := is_ext, is_int := is_int, is_ua := is_ua, is_op := is_op,
    is_ls := is_ls,
    keyword_undercoat := kw_uc, keyword_prime := kw_pr,
    keyword_touchup := kw_tu, keyword_rollwalls := kw_rw,
    keyword_baseshoe := kw_bs,
    matched_keywords :=
      mkExt ++ mkInt ++ mkUa ++ mkOp ++ mkLs ++ mkUc ++ mkPr ++ mkTu ++ mkRw ++ mkBs }

/-! ## `map_category` (category_mapper.py lines 237-365)

The template map is an association list with unique keys (see `dictInsert`
below); `template_has` is a plain lookup. Each numbered rule of the source
becomes one definition returning `none` for fall-through and `some (od, r)`
for an early return of `(od, r)`; `map_category` chains them in source
order. -/

/-- Python dict membership plus subscript: display name for a canonical key. -/
def template_has (m : List (String × String)) (k : String) : Option String :=
  List.lookup k m

/-- Outcome of one rule: `none` falls through to the next rule, `some (od, r)`
returns `(od, r)` from `map_category`. -/
abbrev RuleOut := Option (Option String × String)

/-- The shared shape of rules 1-5: on the trigger condition, the UA variant
is looked up when `is_ua` (an absent UA entry is an early unmapped return),
otherwise the base entry is looked up (an absent base entry falls
through). -/
def ua_rule (cond ua : Bool) (m : List (String × String))
    (keyUA keyBase rUA rMissUA rBase : String) : RuleOut :=
  if cond then
    if ua then
      match template_has m keyUA with
      | some d => some (some d, rUA)
      | none => some (none, rMissUA)
    else
      match template_has m keyBase with
      | some d => some (some d, rBase)
      | none => none
  else none

/-- The shape of rules 6, 7 and 8b: one lookup, fall-through on a missing
template entry. -/
def open_rule (cond : Bool) (m : List (String × String)) (key r : String) :
    RuleOut :=
  if cond then
    match template_has m key with
    | some d => some (some d, r)
    | none => none
  else none

/-- The shape of rule 8a: one lookup, early unmapped return on a missing
template entry. -/
def strict_rule (cond : Bool) (m : List (String × String))
    (key rOk rMiss : String) : RuleOut :=
  if cond then
    match template_has m key with
    | some d => some (some d, rOk)
    | none => some (none, rMiss)
  else none

/-- Rule 1: BASE SHOE. -/
def rule_baseshoe (sig : TaskSignals) (m : List (String × String)) : RuleOut :=
  ua_rule sig.keyword_baseshoe sig.is_ua m "BASE SHOE UA" "BASE SHOE"
    "matched_baseshoe_ua" "unmapped_baseshoe_ua" "matched_baseshoe"

/-- Rule 2: UNDERCOAT. -/
def rule_undercoat (sig : TaskSignals) (m : List (String × String)) : RuleOut :=
  ua_rule sig.keyword_undercoat sig.is_ua m "UNDERCOAT UA" "UNDERCOAT"
    "matched_undercoat_ua" "unmapped_undercoat_ua" "matched_undercoat"

/-- Rule 3: TOUCH UP. -/
def rule_touchup (sig : TaskSignals) (m : List (String × String)) : RuleOut :=
  ua_rule sig.keyword_touchup sig.is_ua m "TOUCH UP UA" "TOUCH UP"
    "matched_touchup_ua" "unmapped_touchup_ua" "matched_touchup"

/-- Rule 4: ROLL WALLS FINAL. -/
def rule_rollwalls (sig : TaskSignals) (m : List (String × String)) : RuleOut :=
  ua_rule sig.keyword_rollwalls sig.is_ua m "ROLL WALLS FINAL UA"
    "ROLL WALLS FINAL" "matched_rollwalls_ua" "unmapped_rollwalls_ua"
    "matched_rollwalls"

/-- Rule 5: EXT PRIME. -/
def rule_extprime (sig : TaskSignals) (m : List (String × String)) : RuleOut :=
  ua_rule (sig.is_ext && sig.keyword_prime) sig.is_ua m "EXT PRIME UA"
    "EXT PRIME" "matched_ext_prime_ua" "unmapped_ext_prime_ua"
    "matched_ext_prime"

/-- Remove every parenthetical (any characters up to the next closing
parenthesis), mirroring the scope-core regex. -/
def stripParenContentF : Nat → List Char → List Char
  | 0, l => l
  | _ + 1, [] => []
  | fuel + 1, c :: rest =>
    if c = '(' then
      let run := rest.takeWhile (fun d => d ≠ ')')
      match rest.drop run.length with
      | ')' :: tail => stripParenContentF fuel tail
      | _ => c :: stripParenContentF fuel rest
    else c :: stripParenContentF fuel rest

/-- `scope_core` of lines 310-312: scope fragment with parentheticals
removed, stripped, uppercased. -/
def scope_core_of (task_text : String) : String :=
  let scope := extract_scope_fragment task_text
  pyUpper (pyStrip (String.mk (stripParenContentF scope.data.length scope.data)))

/-- The genericity test of rules 6-8: membership in the small fixed set or a
word-boundary hit of the full or the short location word. -/
def scope_mentions (scopeCore fullWord shortWord genericPhrase : String) : Bool :=
  scopeCore == "" || scopeCore == fullWord || scopeCore == shortWord ||
  scopeCore == genericPhrase ||
  pyWordTok scopeCore fullWord || pyWordTok scopeCore shortWord

/-- Rule 6: EXTERIOR UA, only for generic exterior scopes; falls through on a
missing template entry. -/
def rule_exterior_ua (sig : TaskSignals) (m : List (String × String))
    (scopeCore : String) : RuleOut :=
  open_rule (sig.is_ext && sig.is_ua &&
      scope_mentions scopeCore "EXTERIOR" "EXT" "EXTERIOR PAINTING")
    m "EXTERIOR UA" "matched_exterior_ua"

/-- Rule 7: EXTERIOR, non-UA generic exterior scopes; falls through on a
missing template entry. -/
def rule_exterior (sig : TaskSignals) (m : List (String × String))
    (scopeCore : String) : RuleOut :=
  open_rule (sig.is_ext && !sig.is_ua &&
      scope_mentions scopeCore "EXTERIOR" "EXT" "EXTERIOR PAINTING")
    m "EXTERIOR" "matched_exterior"

/-- Rule 8a: INTERIOR UA; early-returns unmapped when the template entry is
missing. -/
def rule_interior_ua (sig : TaskSignals) (m : List (String × String))
    (scopeCore : String) : RuleOut :=
  strict_rule (sig.is_int && sig.is_ua &&
      scope_mentions scopeCore "INTERIOR" "INT" "INTERIOR PAINTING")
    m "INTERIOR UA" "matched_interior_ua" "unmapped_interior_ua"

/-- Rule 8b: INTERIOR; falls through on a missing template entry. -/
def rule_interior (sig : TaskSignals) (m : List (String × String))
    (scopeCore : String) : RuleOut :=
  open_rule (sig.is_int && !sig.is_ua &&
      scope_mentions scopeCore "INTERIOR" "INT" "INTERIOR PAINTING")
    m "INTERIOR" "matched_interior"

/-- The rule chain: the first rule that does not fall through decides; when
every rule falls through the result is the unmapped-template outcome of
line 365. -/
def firstRule : List RuleOut → Option String × String
  | [] => (none, "unmapped_template")
  | r :: rest =>
    match r with
    | some out => out
    | none => firstRule rest

/-- `map_category(task_text, signals, template_canon_to_display)`. -/
def map_category (task_text : String) (sig : TaskSignals)
    (m : List (String × String)) : Option String × String :=
  let scopeCore := scope_core_of task_text
  firstRule
    [rule_baseshoe sig m, rule_undercoat sig m, rule_touchup sig m,
     rule_rollwalls sig m, rule_extprime sig m,
     rule_exterior_ua sig m scopeCore, rule_exterior sig m scopeCore,
     rule_interior_ua sig m scopeCore, rule_interior sig m scopeCore]

/-! ## Category name synthesis (category_mapper.py lines 368-429) -/

/-- Python `name[:k].rsplit(chr(32), 1)[0]`: everything before the last space
of the truncated text, or the whole truncated text when it has no space. -/
def cutLastSpace (l : List Char) : List Char :=
  let r := l.reverse
  if r.any (fun c => c = ' ') then ((r.dropWhile (fun c => c ≠ ' ')).drop 1).reverse
  else l

/-- Lines 392-403 of the source: reserve three characters for the UA suffix
when it will be needed, truncate at the last word boundary before the cap,
clean trailing separators. -/
def truncate_step (sig : TaskSignals) (name : String) : String :=
  let truncateLimit : Nat :=
    if sig.is_ua && !pyContains name "UA" then 35 - 3 else 35
  if name.data.length > truncateLimit then
    pyRStrip (String.mk (cutLastSpace (name.data.take truncateLimit))) [' ', '/', '-', '&']
  else name

/-- Lines 405-407 of the source: append the UA suffix after truncation,
unless `UA` already occurs in the name. -/
def ua_suffix_step (sig : TaskSignals) (name : String) : String :=
  if sig.is_ua && !pyContains name "UA" then name ++ " UA" else name

/-- `compute_base_category_name(task_text, signals)`. -/
def compute_base_category_name (task_text : String) (sig : TaskSignals) : String :=
  let fragment := extract_scope_fragment task_text
  let fragment := if fragment = "" then "MISC" else fragment
  let name := pyStrip (String.mk (collapseWS (pyUpper fragment).data))
  let hasExtPre := pyStartsWith name "EXT" || pyContains name "EXTERIOR"
  let hasIntPre := pyStartsWith name "INT" || pyContains name "INTERIOR"
  let name :=
    if sig.is_ext && !hasExtPre && !hasIntPre then "EXT " ++ name
    else if sig.is_int && !hasIntPre && !hasExtPre then "INT " ++ name
    else name
  ua_suffix_step sig (truncate_step sig name)

/-- The `while canonical(name) in existing` loop of `create_category_name`,
with explicit fuel; the name tried at counter 1 is the base itself, later
counters append a space and the decimal counter. -/
def createLoop (base : String) (existing : List String) : Nat → Nat → String
  | 0, counter => if counter = 1 then base else base ++ " " ++ natStr counter
  | fuel + 1, counter =>
    let name := if counter = 1 then base else base ++ " " ++ natStr counter
    if canonical name ∈ existing then createLoop base existing fuel (counter + 1)
    else name

/-- `create_category_name(task_text, signals, existing_canonicals)`; the fuel
`existing.length + 2` provably suffices (`createLoop_fresh` below). -/
def create_category_name (task_text : String) (sig : TaskSignals)
    (existing : List String) : String :=
  createLoop (compute_base_category_name task_text sig) existing
    (existing.length + 2) 1

/-! ## `organize_headers` (category_mapper.py lines 432-507) -/

/-- Strip one leading location marker and leftover punctuation
(the helper of line 432). -/
def stripLocMarker (h : String) : String :=
  let h :=
    if pyStartsWith h "INTERIOR " then pyStrip (String.mk (h.data.drop 9))
    else if pyStartsWith h "EXTERIOR " then pyStrip (String.mk (h.data.drop 9))
    else if pyStartsWith h "INT " then pyStrip (String.mk (h.data.drop 4))
    else if pyStartsWith h "EXT " then pyStrip (String.mk (h.data.drop 4))
    else h
  pyLStrip h ['/', ' ', '-', '&']

/-- The inner best-match loop over the non-UA headers, with the running
`(best_match, best_score)` state and the break on an exact normalized
match. -/
def findBase (uaNorm uaRaw : String) :
    List String → Option String × Nat → Option String
  | [], (bm, _) => bm
  | base :: rest, (bm, bs) =>
    let baseUpper := pyUpper (pyStrip base)
    let baseNorm := stripLocMarker baseUpper
    if uaNorm == baseNorm then some base
    else
      let (bm, bs) :=
        if pyContains uaNorm baseNorm && baseNorm.data.length + 100 > bs then
          (some base, baseNorm.data.length + 100)
        else if pyContains baseNorm uaNorm && uaNorm.data.length + 100 > bs then
          (some base, uaNorm.data.length + 100)
        else (bm, bs)
      let (bm, bs) :=
        if pyContains uaRaw baseUpper && baseUpper.data.length > bs && bs < 100 then
          (some base, baseUpper.data.length)
        else (bm, bs)
      findBase uaNorm uaRaw rest (bm, bs)

/-- The best-base dictionary of lines 456-489: for each UA header, the best
matching non-UA base, when one exists. -/
def buildUAToBase (ua_headers non_ua_headers : List String) :
    List (String × String) :=
  ua_headers.foldl (fun acc ua =>
    let uaUpper := pyStrip (pyUpper ua)
    let uaRaw := pyStrip (String.mk (uaUpper.data.take (uaUpper.data.length - 3)))
    let uaNorm := stripLocMarker uaRaw
    match findBase uaNorm uaRaw non_ua_headers (none, 0) with
    | some b => acc ++ [(ua, b)]
    | none => acc) []

/-- The inner loop of lines 495-500: after one base header has been emitted,
append every not-yet-placed UA header whose best base is that header. -/
def placeUAs (ua_headers : List String) (ua_to_base : List (String × String))
    (header : String) (acc : List String × List String) :
    List String × List String :=
  ua_headers.foldl (fun acc2 ua =>
    if ua ∉ acc2.2 ∧ List.lookup ua ua_to_base = some header then
      (acc2.1 ++ [ua], acc2.2 ++ [ua])
    else acc2) acc

/-- The result-building pass of lines 491-500: emit each non-UA header, then
its matched and not-yet-placed UA partners. -/
def basePass (ua_headers : List String) (ua_to_base : List (String × String))
    (non_ua_headers : List String) (acc : List String × List String) :
    List String × List String :=
  non_ua_headers.foldl (fun acc header =>
    placeUAs ua_headers ua_to_base header (acc.1 ++ [header], acc.2)) acc

/-- `organize_headers(headers)`. -/
def organize_headers (headers : List String) : List String :=
  let ua_headers := headers.filter (fun h => pyEndsWith (pyStrip (pyUpper h)) " UA")
  let non_ua_headers := headers.filter (fun h => !pyEndsWith (pyStrip (pyUpper h)) " UA")
  let ua_to_base := buildUAToBase ua_headers non_ua_headers
  let (result, placed) := basePass ua_headers ua_to_base non_ua_headers ([], [])
  result ++ ua_headers.filter (fun ua => ua ∉ placed)

/-! ## The stateful `CategoryMapper` (category_mapper.py lines 510-626) -/

/-- Python dict assignment `m[k] = v`: overwrite in place when the key is
present, append otherwise. All dicts of the embedding are built exclusively
through this operation, so their keys stay unique. -/
def dictInsert {α : Type} (m : List (String × α)) (k : String) (v : α) :
    List (String × α) :=
  if k ∈ m.map (fun p => p.1) then
    m.map (fun p => if p.1 = k then (k, v) else p)
  else m ++ [(k, v)]

/-- One entry of the `created_categories` audit log: the header and its
example tasks (the constant `reason` and the signal dump carry no
information used by any claim and are omitted). -/
structure CreatedCat where
  header : String
  example_tasks : List String
deriving DecidableEq

structure MappingResult where
  category_display : String
  reason : String
  is_new_category : Bool
  signals : TaskSignals
  scope_fragment : String
deriving DecidableEq

/-- The mutable state of a `CategoryMapper`; `created_canonicals` is the
Python set `_created_canonicals` (used only through membership, so a list
suffices). -/
structure MapperState where
  category_headers : List String
  template_canon_to_display : List (String × String)
  created_categories : List CreatedCat
  created_canonicals : List String
deriving DecidableEq

def default_categories : List String :=
  ["EXT PRIME", "EXTERIOR", "EXTERIOR UA", "INTERIOR",
   "BASE SHOE", "ROLL WALLS FINAL", "TOUCH UP", "Q4 REVERSAL"]

/-- `CategoryMapper.__init__(template_headers)`: Python truthiness makes both
`None` and the empty list fall back to the default categories. -/
def mkMapper (template_headers : Option (List String)) : MapperState :=
  let headers :=
    match template_headers with
    | some hs => if hs.isEmpty then default_categories else hs
    | none => default_categories
  { category_headers := headers
    template_canon_to_display :=
      headers.foldl (fun m h => dictInsert m (canonical h) h) []
    created_categories := []
    created_canonicals := [] }

/-- `get_all_canonicals`: the union of the template-map keys and the created
canonicals (a set in Python; only membership is ever used). -/
def get_all_canonicals (st : MapperState) : List String :=
  st.template_canon_to_display.map (fun p => p.1) ++ st.created_canonicals

/-- `CategoryMapper.map_task(task_text)`, returning the result together with
the successor state. -/
def map_task (st : MapperState) (task_text : String) :
    MappingResult × MapperState :=
  let signals := parse_signals task_text
  let (category_display, reason) :=
    map_category task_text signals st.template_canon_to_display
  match category_display with
  | some d =>
    ({ category_display := d, reason := reason, is_new_category := false,
       signals := signals, scope_fragment := extract_scope_fragment task_text },
     st)
  | none =>
    let base_name := compute_base_category_name task_text signals
    let base_canon := canonical base_name
    match List.lookup base_canon st.template_canon_to_display with
    | some d =>
      ({ category_display := d, reason := "reused_created_category",
         is_new_category := false, signals := signals,
         scope_fragment := extract_scope_fragment task_text },
       st)
    | none =>
      let new_name := create_category_name task_text signals (get_all_canonicals st)
      let new_canon := canonical new_name
      let st' : MapperState :=
        { category_headers := st.category_headers ++ [new_name]
          template_canon_to_display :=
            dictInsert st.template_canon_to_display new_canon new_name
          created_categories :=
            st.created_categories ++ [⟨new_name, [task_text]⟩]
          created_canonicals := st.created_canonicals ++ [new_canon] }
      ({ category_display := new_name, reason := "auto_created",
         is_new_category := true, signals := signals,
         scope_fragment := extract_scope_fragment task_text },
       st')

/-- The loop body of `add_example_to_created_category`: modify the first
audit entry whose header matches canonically, then stop. -/
def addExampleAux (canon task : String) : List CreatedCat → List CreatedCat
  | [] => []
  | cat :: rest =>
    if canonical cat.header == canon then
      (if cat.example_tasks.length < 3 then
        { cat with example_tasks := cat.example_tasks ++ [task] }
       else cat) :: rest
    else cat :: addExampleAux canon task rest

/-- `CategoryMapper.add_example_to_created_category(category, task_text)`. -/
def add_example_to_created_category (st : MapperState)
    (category task_text : String) : MapperState :=
  { st with created_categories :=
      addExampleAux (canonical category) task_text st.created_categories }

/-- `CategoryMapper.get_category_headers()`. -/
def get_category_headers (st : MapperState) : List String :=
  st.category_headers

/-! ## The aggregator (aggregator.py lines 13-226)

`ParsedRow` follows the record shape the aggregation core reads (the spec's
section 6 list of fields): the `swing` and `task_start_date` fields are never
touched by the core and are omitted; `task_text_raw` is included because
`aggregate_data` and `classify_row` read it (the pydantic schema in
`app/models/schemas.py` omits it, out of sync with those readers and with the
repository's own tests, which construct rows carrying it). Dollar amounts are
embedded as exact rationals. -/

structure ParsedRow where
  lot_block : Option String := none
  plan : Option String := none
  elevation : Option String := none
  task_text : Option String := none
  task_text_raw : Option String := none
  subtotal : Option Rat := none
  tax : Option Rat := none
  total : Option Rat := none
deriving DecidableEq

/-- `clean_lot_number(lot)`. -/
def clean_lot_number (lot : String) : String :=
  if lot = "" then "" else
  let l := pyRStrip lot ['/', ' ']
  let l2 := pyLStrip l ['0']
  if l2 = "" then "0" else l2

/-- `combine_plan_elevation(plan, elevation)`; the Python truthiness test on
`elevation` and on its stripped form collapses to one emptiness test. -/
def combine_plan_elevation (plan elevation : String) : String :=
  let p := pyStrip plan
  if pyStrip elevation ≠ "" then
    let e := pyStrip elevation
    if !pyEndsWith p e then p ++ e else p
  else p

/-- A cell of a summary-row dict: Python mixes the lot and plan strings with
numeric category values in one dict. -/
inductive Value where
  | str (s : String)
  | num (q : Rat)
deriving DecidableEq

/-- `row.task_text_raw or row.task_text` with the final `if not task_text`
emptiness test folded into a plain string (absent and empty both come out as
the empty string, exactly the rows the source skips). -/
def effective_task (row : ParsedRow) : String :=
  match row.task_text_raw with
  | some t => if t = "" then (row.task_text.getD "") else t
  | none => row.task_text.getD ""

/-- `row.total if row.total is not None else row.subtotal`, then `None` to
`0.0`. -/
def amount_of (row : ParsedRow) : Rat :=
  match row.total with
  | some t => t
  | none => row.subtotal.getD 0

/-- The `(cleaned_lot, combined_plan)` group key of lines 133-137. -/
def group_key (row : ParsedRow) : String × String :=
  (clean_lot_number (row.lot_block.getD ""),
   combine_plan_elevation (row.plan.getD "") (row.elevation.getD ""))

/-- `counts[k] += 1` on a `defaultdict(int)`. -/
def bumpCount (m : List (String × Nat)) (k : String) : List (String × Nat) :=
  dictInsert m k ((List.lookup k m).getD 0 + 1)

/-- `inner[cat] += amt` on a `defaultdict(float)`. -/
def innerBump (m : List (String × Rat)) (cat : String) (amt : Rat) :
    List (String × Rat) :=
  dictInsert m cat ((List.lookup cat m).getD 0 + amt)

/-- `aggregated_data[gk][cat] += amt` on the defaultdict of defaultdicts. -/
def outerBump (d : List ((String × String) × List (String × Rat)))
    (gk : String × String) (cat : String) (amt : Rat) :
    List ((String × String) × List (String × Rat)) :=
  if gk ∈ d.map (fun p => p.1) then
    d.map (fun p => if p.1 = gk then (p.1, innerBump p.2 cat amt) else p)
  else d ++ [(gk, innerBump [] cat amt)]

/-- The loop state of `aggregate_data` (the `mapping_details` list is built
but never read afterwards and is omitted). -/
structure AggState where
  mapper : MapperState
  aggregated_data : List ((String × String) × List (String × Rat))
  appearance_order : List ((String × String) × Nat)
  counts_per_category : List (String × Nat)
  unmapped_tasks : List String
deriving DecidableEq

def initAggState (template_headers : Option (List String)) : AggState :=
  { mapper := mkMapper template_headers
    aggregated_data := []
    appearance_order := []
    counts_per_category := []
    unmapped_tasks := [] }

/-- One iteration of the row loop of `aggregate_data` (lines 97-144). -/
def agg_step (st : AggState) (row : ParsedRow) : AggState :=
  let task_text := effective_task row
  if task_text = "" then
    { st with
      counts_per_category := bumpCount st.counts_per_category "UNMAPPED"
      unmapped_tasks := st.unmapped_tasks ++ ["(empty task)"] }
  else
    let (result, mapper') := map_task st.mapper task_text
    let category := result.category_display
    let counts' := bumpCount st.counts_per_category category
    let mapper'' :=
      if result.is_new_category then
        add_example_to_created_category mapper' category task_text
      else mapper'
    let amount := amount_of row
    let gk := group_key row
    let appearance' :=
      if (List.lookup gk st.appearance_order).isSome then st.appearance_order
      else st.appearance_order ++ [(gk, st.appearance_order.length)]
    { mapper := mapper''
      aggregated_data := outerBump st.aggregated_data gk category amount
      appearance_order := appearance'
      counts_per_category := counts'
      unmapped_tasks := st.unmapped_tasks }

/-- One summary-row dict (lines 155-186): lot and plan first, then every
final header's value (0.0 when the house has no amount for it), then the
group total. -/
def build_summary_row (final_headers : List String) (gk : String × String)
    (categories : List (String × Rat)) : List (String × Value) :=
  let total := (categories.map (fun p => p.2)).sum
  let row0 := dictInsert (dictInsert [] "lot_block" (Value.str gk.1))
    "plan" (Value.str gk.2)
  let row1 := final_headers.foldl
    (fun acc h => dictInsert acc h (Value.num ((List.lookup h categories).getD 0)))
    row0
  dictInsert row1 "total" (Value.num total)

/-- Reading a string cell of a summary row (used by the final sort key). -/
def getStr (row : List (String × Value)) (k : String) : String :=
  match List.lookup k row with
  | some (Value.str s) => s
  | _ => ""

/-- Reading a numeric cell of a summary row. -/
def getNum (row : List (String × Value)) (k : String) : Rat :=
  match List.lookup k row with
  | some (Value.num q) => q
  | _ => 0

/-- The sort key comparison of lines 189-191: appearance index when present,
`infinity` otherwise. -/
def apLe (a b : Option Nat) : Prop :=
  match a, b with
  | some x, some y => x ≤ y
  | some _, none => True
  | none, some _ => False
  | none, none => True

instance : DecidableRel apLe := fun a b => by
  unfold apLe
  match a, b with
  | some x, some y => exact inferInstanceAs (Decidable (x ≤ y))
  | some _, none => exact inferInstanceAs (Decidable True)
  | none, some _ => exact inferInstanceAs (Decidable False)
  | none, none => exact inferInstanceAs (Decidable True)

/-- Appearance index of a built summary row. -/
def rowIdx (appearance : List ((String × String) × Nat))
    (row : List (String × Value)) : Option Nat :=
  List.lookup (getStr row "lot_block", getStr row "plan") appearance

/-- `aggregate_data(rows, qa_meta, template_headers)`, reduced to the outputs
the claims are about: the ordered summary rows, the `counts_per_bucket`
mapping of the QA report, and the final organized headers. The parse
metadata is passed through untouched and the remaining QA fields
(`unmapped_examples`, `suspicious_totals`) are pure audit reporting read by
no claim; they are omitted. The final Python `.sort` (stable, by appearance
index) is embedded as a stable insertion sort. -/
def aggregate_data (rows : List ParsedRow)
    (template_headers : Option (List String)) :
    List (List (String × Value)) × List (String × Nat) × List String :=
  let st := rows.foldl agg_step (initAggState template_headers)
  let active_headers := (get_category_headers st.mapper).filter
    (fun h => ((List.lookup h st.counts_per_category).getD 0) > 0)
  let final_headers := organize_headers active_headers
  let summary0 := st.aggregated_data.map
    (fun p => build_summary_row final_headers p.1 p.2)
  let summary := List.insertionSort
    (fun x y => apLe (rowIdx st.appearance_order x) (rowIdx st.appearance_order y))
    summary0
  (summary, st.counts_per_category, final_headers)

/-! ## Spec-side and auxiliary definitions used by the claims -/

/-- Modelled from the spec: the first-appearance order of group keys
("first-seen order is tracked and used as the final output row ordering"),
written independently of the aggregation loop for the order-preservation
claim: walk the rows, skip empty tasks, record each group key the first time
it shows up. -/
def specFirstSeenGroups (rows : List ParsedRow) : List (String × String) :=
  rows.foldl (fun acc row =>
    if effective_task row = "" then acc
    else if group_key row ∈ acc then acc else acc ++ [group_key row]) []

/-- Keys of an association list. -/
def keysOf {κ α : Type} (m : List (κ × α)) : List κ :=
  m.map (fun p => p.1)

/-- Not a lowercase ASCII letter. -/
def okChar (c : Char) : Bool := !(decide ('a' ≤ c) && decide (c ≤ 'z'))

/-- No lowercase ASCII letter occurs: true of every auto-created header. -/
def noLower (s : String) : Bool := s.data.all okChar

/-- A header that does not collide with the three fixed summary-row keys. -/
def GoodHeader (h : String) : Prop :=
  h ≠ "lot_block" ∧ h ≠ "plan" ∧ h ≠ "total"

instance decGoodHeader (h : String) : Decidable (GoodHeader h) := by
  unfold GoodHeader; infer_instance

/-- Every value stored in the canonical map is one of the headers (an
invariant of every reachable mapper state). -/
def ValuesInHeaders (st : MapperState) : Prop :=
  ∀ p ∈ st.template_canon_to_display, p.2 ∈ st.category_headers

/-- Every header is either a template header or an auto-created one (which
carries no lowercase letters). -/
def HeadersFrom (tmpl : Option (List String)) (st : MapperState) : Prop :=
  ∀ h ∈ st.category_headers, h ∈ (mkMapper tmpl).category_headers ∨ noLower h = true

/-- The canonical-uniqueness invariant of the claim: pairwise-distinct
canonical forms of the headers, unique canonical keys, and every header's
canonical form present among the keys of `template_canon_to_display`. -/
def CanonInv (st : MapperState) : Prop :=
  (st.category_headers.map canonical).Nodup ∧
  (keysOf st.template_canon_to_display).Nodup ∧
  ∀ h ∈ st.category_headers, canonical h ∈ keysOf st.template_canon_to_display

/-- Sum of the category columns of a summary row: each distinct final header
read once. -/
def row_category_sum (row : List (String × Value)) (headers : List String) : Rat :=
  (headers.dedup.map (fun h => getNum row h)).sum

/-- The dollar value sitting in one `(group, category)` cell of the
aggregation accumulator (`0` when the cell does not exist). -/
def cellOf (d : List ((String × String) × List (String × Rat)))
    (gk : String × String) (cat : String) : Rat :=
  ((List.lookup gk d).getD []).lookup cat |>.getD 0

/-- The cell bookkeeping invariant of the aggregation loop: every house's
category dict has unique keys, and every key is a current mapper header with
a positive occurrence count. -/
def AggCellInv (st : AggState) : Prop :=
  ∀ p ∈ st.aggregated_data, (keysOf p.2).Nodup ∧
    ∀ cat ∈ keysOf p.2,
      cat ∈ get_category_headers st.mapper ∧
      0 < (List.lookup cat st.counts_per_category).getD 0

/-! ### Concrete inputs used by scenario theorems, counterexamples and
witnesses -/

def c1_rows : List ParsedRow :=
  [{ lot_block := some "1", plan := some "2", task_text := some "Touch Up A",
     total := some 100 },
   { lot_block := some "1", plan := some "2", task_text := some "Touch Up B",
     total := some 200 }]

def c3_task : String := String.mk (List.replicate 36 '&')

def c5_task : String := "Guardrail panels alpha beta gamma delta [UA]"

def c7_template : List String := ["EXT PRIME", "EXTERIOR", "EXTERIOR UA", "INTERIOR"]

def c7_task : String := "Painting - Spray Overhang (EXT) [UA]"

def c7_call : MappingResult × MapperState :=
  map_task (mkMapper (some c7_template)) c7_task

def c6_taskA : String := "Spray overhang stuff"

def c6_taskB : String := "spray overhang stuff [PUNCH]"

def c6_callA : MappingResult × MapperState := map_task (mkMapper none) c6_taskA

def c6_callB : MappingResult × MapperState := map_task c6_callA.2 c6_taskB

def c10_task : String := "Painting - Touch Up (437230) (INT) [LS]"

def c8_rows : List ParsedRow :=
  [{ lot_block := some "3", plan := some "1", task_text := some "Touch Up",
     total := some 10 },
   { lot_block := some "1", plan := some "2", task_text := some "Touch Up",
     total := some 20 },
   { lot_block := some "3", plan := some "1", task_text := some "Interior (INT)",
     total := some 30 },
   { lot_block := some "2", plan := some "9", task_text := some "Touch Up",
     total := some 5 }]

def c9_row : ParsedRow := { lot_block := some "7", plan := some "4", total := some 50 }

def c4_bad_template : List String := ["TOUCH UP", "Touch Up"]

def c2_row : ParsedRow :=
  { lot_block := some "5", plan := some "2",
    task_text := some "Painting - Touch Up (INT)", total := some 100 }

def c2_rows : List ParsedRow :=
  [c2_row,
   { lot_block := some "5", plan := some "2",
     task_text := some "Painting - Roll Walls (INT)", total := some 200 }]

/-- How one rule outcome can change when the canonical map is extended by a
single fresh entry with value `N`: it is unchanged, or a fall-through or
early-unmapped outcome turns into a match of the new entry. -/
def extOk (N : String) (ro rn : RuleOut) : Prop :=
  rn = ro ∨
    ((ro = none ∨ ∃ r, ro = some (none, r)) ∧ ∃ r, rn = some (some N, r))

/-- Value of a least-significant-first digit list; the left inverse of
`natRevDigits`, used to show distinct counters render distinctly. -/
def revVal : List Char → Nat
  | [] => 0
  | c :: rest => (c.toNat - 48) + 10 * revVal rest

/-- The part of `canonical (base ++ " " ++ natStr j)` that does not depend
on the counter `j`: the canonical core of `base` kept open at the right
end. -/
def numPrefix (base : String) : List Char :=
  collapseWS (List.dropWhile (fun c => !isPyWord c)
    (List.dropWhile isPySpace (base.data.map Char.toUpper ++ [' '])))

/-- The auto-creating task of the C6 witness. -/
def c6_wtA : String := "Painting - Rolling Roof (EXT) [LS]"

/-- The scope-colliding second task of the C6 witness. -/
def c6_wtB : String := "Painting - Rolling Roof (EXT) [OP]"

/-! ## Association-list lemmas -/

section AList

variable {κ α : Type} [DecidableEq κ] [BEq κ] [LawfulBEq κ]

theorem lookup_cons_self (m : List (κ × α)) (k : κ) (v : α) :
    List.lookup k ((k, v) :: m) = some v := by
  simp [List.lookup_cons]

theorem lookup_cons_ne (m : List (κ × α)) (k k' : κ) (v : α)
    (h : k' ≠ k) : List.lookup k' ((k, v) :: m) = List.lookup k' m := by
  simp [List.lookup_cons, beq_false_of_ne h]

theorem mem_of_lookup (m : List (κ × α)) (k : κ) (v : α)
    (h : List.lookup k m = some v) : (k, v) ∈ m := by
  induction m with
  | nil => simp [List.lookup] at h
  | cons p rest ih =>
    obtain ⟨k', v'⟩ := p
    by_cases hk : k = k'
    · subst hk
      rw [lookup_cons_self] at h
      cases h
      exact List.mem_cons_self _ _
    · rw [lookup_cons_ne _ _ _ _ hk] at h
      exact List.mem_cons_of_mem _ (ih h)

theorem lookup_eq_none_of_not_mem (m : List (κ × α)) (k : κ)
    (h : k ∉ keysOf m) : List.lookup k m = none := by
  induction m with
  | nil => rfl
  | cons p rest ih =>
    obtain ⟨k', v'⟩ := p
    simp only [keysOf, List.map_cons, List.mem_cons] at h
    push_neg at h
    rw [lookup_cons_ne _ _ _ _ h.1]
    exact ih (by simpa [keysOf] using h.2)

theorem not_mem_of_lookup_eq_none (m : List (κ × α)) (k : κ)
    (h : List.lookup k m = none) : k ∉ keysOf m := by
  induction m with
  | nil => simp [keysOf]
  | cons p rest ih =>
    obtain ⟨k', v'⟩ := p
    by_cases hk : k = k'
    · subst hk; rw [lookup_cons_self] at h; cases h
    · rw [lookup_cons_ne _ _ _ _ hk] at h
      simp only [keysOf, List.map_cons, List.mem_cons]
      push_neg
      exact ⟨hk, by simpa [keysOf] using ih h⟩

theorem lookup_isSome_iff_mem_keys (m : List (κ × α)) (k : κ) :
    (List.lookup k m).isSome ↔ k ∈ keysOf m := by
  constructor
  · intro h
    by_contra hmem
    rw [lookup_eq_none_of_not_mem m k hmem] at h
    simp at h
  · intro h
    cases hl : List.lookup k m with
    | some v => simp
    | none => exact absurd h (not_mem_of_lookup_eq_none m k hl)

theorem dictInsert_eq_ite (m : List (κ × α)) (k : κ) (v : α) :
    (if k ∈ m.map (fun p => p.1) then
      m.map (fun p => if p.1 = k then (k, v) else p)
     else m ++ [(k, v)]) =
    (if k ∈ keysOf m then
      m.map (fun p => if p.1 = k then (k, v) else p)
     else m ++ [(k, v)]) := rfl

theorem dictInsert_of_not_mem (m : List (String × α)) (k : String) (v : α)
    (h : k ∉ keysOf m) : dictInsert m k v = m ++ [(k, v)] := by
  unfold dictInsert
  exact if_neg h

theorem dictInsert_of_mem (m : List (String × α)) (k : String) (v : α)
    (h : k ∈ keysOf m) :
    dictInsert m k v = m.map (fun p => if p.1 = k then (k, v) else p) := by
  unfold dictInsert
  exact if_pos h

theorem keysOf_append (m m' : List (κ × α)) :
    keysOf (m ++ m') = keysOf m ++ keysOf m' := by
  simp [keysOf]

theorem keysOf_dictInsert_mem (m : List (String × α)) (k : String) (v : α)
    (h : k ∈ keysOf m) : keysOf (dictInsert m k v) = keysOf m := by
  rw [dictInsert_of_mem m k v h]
  unfold keysOf
  rw [List.map_map]
  apply List.map_congr_left
  intro p _
  by_cases hp : p.1 = k <;> simp [hp]

theorem keysOf_dictInsert_not_mem (m : List (String × α)) (k : String)
    (v : α) (h : k ∉ keysOf m) : keysOf (dictInsert m k v) = keysOf m ++ [k] := by
  rw [dictInsert_of_not_mem m k v h, keysOf_append]
  rfl

theorem lookup_append_of_none (m m' : List (κ × α)) (k : κ)
    (h : List.lookup k m = none) :
    List.lookup k (m ++ m') = List.lookup k m' := by
  induction m with
  | nil => rfl
  | cons p rest ih =>
    obtain ⟨k', v'⟩ := p
    by_cases hk : k = k'
    · subst hk; rw [lookup_cons_self] at h; cases h
    · rw [lookup_cons_ne _ _ _ _ hk] at h
      rw [List.cons_append, lookup_cons_ne _ _ _ _ hk]
      exact ih h

theorem lookup_append_of_some (m m' : List (κ × α)) (k : κ) (v : α)
    (h : List.lookup k m = some v) :
    List.lookup k (m ++ m') = some v := by
  induction m with
  | nil => simp [List.lookup] at h
  | cons p rest ih =>
    obtain ⟨k', v'⟩ := p
    by_cases hk : k = k'
    · subst hk
      rw [lookup_cons_self] at h
      rw [List.cons_append, lookup_cons_self]
      exact h
    · rw [lookup_cons_ne _ _ _ _ hk] at h
      rw [List.cons_append, lookup_cons_ne _ _ _ _ hk]
      exact ih h

theorem lookup_map_replace (m : List (String × α)) (k k' : String) (v : α) :
    List.lookup k' (m.map (fun p => if p.1 = k then (k, v) else p)) =
      if k' = k then (if k ∈ keysOf m then some v else none)
      else List.lookup k' m := by
  induction m with
  | nil =>
    by_cases hk : k' = k <;> simp [keysOf, List.lookup, hk]
  | cons p rest ih =>
    obtain ⟨k0, v0⟩ := p
    by_cases hk0 : k0 = k
    · subst hk0
      rw [List.map_cons, if_pos (show (k0, v0).1 = k0 from rfl)]
      by_cases hkk : k' = k0
      · subst hkk
        rw [lookup_cons_self]
        simp [keysOf]
      · rw [lookup_cons_ne _ _ _ _ hkk, ih, lookup_cons_ne _ _ _ _ hkk]
        rw [if_neg hkk, if_neg hkk]
    · rw [List.map_cons, if_neg (show ¬((k0, v0).1 = k) from hk0)]
      by_cases hkk : k' = k0
      · subst hkk
        rw [lookup_cons_self, lookup_cons_self]
        rw [if_neg (fun hc : k' = k => hk0 (hc ▸ rfl))]
      · rw [lookup_cons_ne _ _ _ _ hkk, ih, lookup_cons_ne _ _ _ _ hkk]
        by_cases hk : k' = k
        · subst hk
          rw [if_pos rfl, if_pos rfl]
          have : (k' ∈ keysOf ((k0, v0) :: rest)) ↔ (k' ∈ keysOf rest) := by
            simp [keysOf]
            intro hc
            exact absurd hc hkk
          by_cases hmem : k' ∈ keysOf rest
          · rw [if_pos hmem, if_pos (this.mpr hmem)]
          · rw [if_neg hmem, if_neg (fun hc => hmem (this.mp hc))]
        · rw [if_neg hk, if_neg hk]

theorem lookup_dictInsert_self (m : List (String × α)) (k : String)
    (v : α) : List.lookup k (dictInsert m k v) = some v := by
  by_cases h : k ∈ keysOf m
  · rw [dictInsert_of_mem m k v h, lookup_map_replace]
    simp [h]
  · rw [dictInsert_of_not_mem m k v h,
      lookup_append_of_none _ _ _ (lookup_eq_none_of_not_mem m k h)]
    exact lookup_cons_self _ _ _

theorem lookup_dictInsert_ne (m : List (String × α)) (k k' : String)
    (v : α) (h : k' ≠ k) :
    List.lookup k' (dictInsert m k v) = List.lookup k' m := by
  by_cases hm : k ∈ keysOf m
  · rw [dictInsert_of_mem m k v hm, lookup_map_replace]
    simp [if_neg h]
  · rw [dictInsert_of_not_mem m k v hm]
    cases hl : List.lookup k' m with
    | some w => exact lookup_append_of_some _ _ _ _ hl
    | none =>
      rw [lookup_append_of_none _ _ _ hl, lookup_cons_ne _ _ _ _ h]
      rfl

theorem nodup_keys_dictInsert (m : List (String × α)) (k : String) (v : α)
    (h : (keysOf m).Nodup) : (keysOf (dictInsert m k v)).Nodup := by
  by_cases hk : k ∈ keysOf m
  · rwa [keysOf_dictInsert_mem m k v hk]
  · rw [keysOf_dictInsert_not_mem m k v hk]
    simpa [List.nodup_append] using ⟨h, fun hc => hk hc⟩

end AList

/-! ## Small string lemmas -/

theorem string_eq_empty_iff (s : String) : s = "" ↔ s.data = [] := by
  cases s with
  | mk d =>
    constructor
    · intro h
      have : (String.mk d).data = ("" : String).data := by rw [h]
      simpa using this
    · intro h
      simp only at h
      subst h
      rfl

theorem pyEndsWith_append (s t : String) : pyEndsWith (s ++ t) t = true := by
  unfold pyEndsWith
  rw [String.data_append, List.isSuffixOf]
  induction s.data with
  | nil => simp [List.isPrefixOf_iff_prefix]
  | cons c cs ih => simpa using ih

theorem append_sep_ne_empty (s t u : String) : s ++ " " ++ u ≠ t ++ "" → True := fun _ => trivial

theorem string_append_space_ne_empty (s u : String) : s ++ " " ++ u ≠ "" := by
  intro h
  rw [string_eq_empty_iff] at h
  rw [String.data_append, String.data_append] at h
  simp at h

/-! ## `ua_suffix_step`: the UA suffix survives unless `UA` already occurs -/

theorem ua_suffix_step_spec (sig : TaskSignals) (n : String) (h : sig.is_ua = true) :
    pyEndsWith (ua_suffix_step sig n) " UA" = true ∨
    pyContains (ua_suffix_step sig n) "UA" = true := by
  unfold ua_suffix_step
  rw [h]
  cases hc : pyContains n "UA" with
  | true => simp [hc]
  | false =>
    simp only [hc, Bool.not_false, Bool.and_self, if_pos]
    exact Or.inl (pyEndsWith_append n " UA")

/-! ## Frame lemma: non-creating calls leave the mapper untouched -/

theorem map_task_state_of_not_new (st : MapperState) (t : String)
    (h : (map_task st t).1.is_new_category = false) : (map_task st t).2 = st := by
  simp only [map_task] at h ⊢
  rcases hmc : map_category t (parse_signals t) st.template_canon_to_display with ⟨cd, r⟩
  rw [hmc] at h
  simp only [hmc]
  cases cd with
  | some d => rfl
  | none =>
    cases hlk : List.lookup (canonical (compute_base_category_name t (parse_signals t)))
        st.template_canon_to_display with
    | some d => simp only [hlk]
    | none => simp [hlk] at h

/-! ## Rule-chain lemmas -/

theorem firstRule_eq_some (rules : List RuleOut) (d : String) (r : String)
    (h : firstRule rules = (some d, r)) : some (some d, r) ∈ rules := by
  induction rules with
  | nil => simp [firstRule] at h
  | cons r0 rest ih =>
    unfold firstRule at h
    cases r0 with
    | some out =>
      simp only at h
      rw [h]
      exact List.mem_cons_self _ _
    | none => exact List.mem_cons_of_mem _ (ih h)

theorem ua_rule_some (cond ua : Bool) (m : List (String × String))
    (kUA kB rUA rM rB : String) (d r : String)
    (h : ua_rule cond ua m kUA kB rUA rM rB = some (some d, r)) :
    ∃ k, template_has m k = some d := by
  unfold ua_rule at h
  split at h
  · split at h
    · cases hl : template_has m kUA with
      | some x => rw [hl] at h; simp at h; exact ⟨kUA, by rw [hl, h.1]⟩
      | none => rw [hl] at h; simp at h
    · cases hl : template_has m kB with
      | some x => rw [hl] at h; simp at h; exact ⟨kB, by rw [hl, h.1]⟩
      | none => rw [hl] at h; simp at h
  · simp at h

theorem open_rule_some (cond : Bool) (m : List (String × String))
    (key rr : String) (d r : String)
    (h : open_rule cond m key rr = some (some d, r)) :
    ∃ k, template_has m k = some d := by
  unfold open_rule at h
  split at h
  · cases hl : template_has m key with
    | some x => rw [hl] at h; simp at h; exact ⟨key, by rw [hl, h.1]⟩
    | none => rw [hl] at h; simp at h
  · simp at h

theorem strict_rule_some (cond : Bool) (m : List (String × String))
    (key rOk rMiss : String) (d r : String)
    (h : strict_rule cond m key rOk rMiss = some (some d, r)) :
    ∃ k, template_has m k = some d := by
  unfold strict_rule at h
  split at h
  · cases hl : template_has m key with
    | some x => rw [hl] at h; simp at h; exact ⟨key, by rw [hl, h.1]⟩
    | none => rw [hl] at h; simp at h
  · simp at h

/-- A successful template-first match always returns a value stored in the
template map. -/
theorem map_category_some (t : String) (sig : TaskSignals)
    (m : List (String × String)) (d : String)
    (h : (map_category t sig m).1 = some d) :
    ∃ k, List.lookup k m = some d := by
  unfold map_category at h
  have h2 : map_category t sig m = (some d, (map_category t sig m).2) := by
    unfold map_category
    exact Prod.ext h rfl
  unfold map_category at h2
  have hmem := firstRule_eq_some _ _ _ h2
  simp only [List.mem_cons, List.not_mem_nil, or_false] at hmem
  rcases hmem with h9 | h9 | h9 | h9 | h9 | h9 | h9 | h9 | h9
  · exact ua_rule_some _ _ _ _ _ _ _ _ _ _ h9.symm
  · exact ua_rule_some _ _ _ _ _ _ _ _ _ _ h9.symm
  · exact ua_rule_some _ _ _ _ _ _ _ _ _ _ h9.symm
  · exact ua_rule_some _ _ _ _ _ _ _ _ _ _ h9.symm
  · exact ua_rule_some _ _ _ _ _ _ _ _ _ _ h9.symm
  · exact open_rule_some _ _ _ _ _ _ h9.symm
  · exact open_rule_some _ _ _ _ _ _ h9.symm
  · exact strict_rule_some _ _ _ _ _ _ _ h9.symm
  · exact open_rule_some _ _ _ _ _ _ h9.symm

/-! ## Entries of the constructed canonical map -/

theorem mem_dictInsert {α : Type} (m : List (String × α)) (k : String) (v : α)
    (p : String × α) (h : p ∈ dictInsert m k v) : p ∈ m ∨ p = (k, v) := by
  unfold dictInsert at h
  split at h
  · rw [List.mem_map] at h
    obtain ⟨q, hq, hpq⟩ := h
    by_cases hqk : q.1 = k
    · right
      rw [if_pos hqk] at hpq
      exact hpq.symm
    · left
      rw [if_neg hqk] at hpq
      exact hpq ▸ hq
  · rw [List.mem_append] at h
    rcases h with h | h
    · exact Or.inl h
    · simp at h
      exact Or.inr (by rw [h])

theorem canonMap_mem_aux (headers : List String) :
    ∀ (acc : List (String × String)) (p : String × String),
      p ∈ headers.foldl (fun m h => dictInsert m (canonical h) h) acc →
      p ∈ acc ∨ ∃ x ∈ headers, p = (canonical x, x) := by
  induction headers with
  | nil => intro acc p h; exact Or.inl h
  | cons hd rest ih =>
    intro acc p h
    rw [List.foldl_cons] at h
    rcases ih _ p h with hacc | ⟨x, hx, hpx⟩
    · rcases mem_dictInsert _ _ _ _ hacc with hm | hp
      · exact Or.inl hm
      · exact Or.inr ⟨hd, List.mem_cons_self _ _, hp⟩
    · exact Or.inr ⟨x, List.mem_cons_of_mem _ hx, hpx⟩

/-- Every entry of the mapper's initial canonical map pairs the canonical
form of some header with that header. -/
theorem mkMapper_canonMap_mem (tmpl : Option (List String)) (p : String × String)
    (h : p ∈ (mkMapper tmpl).template_canon_to_display) :
    ∃ x ∈ (mkMapper tmpl).category_headers, p = (canonical x, x) := by
  unfold mkMapper at h ⊢
  rcases canonMap_mem_aux _ [] p h with hm | hx
  · simp at hm
  · exact hx

/-! ## Shape of the names produced by the uniqueness loop -/

theorem createLoop_shape (base : String) (existing : List String) :
    ∀ fuel counter, createLoop base existing fuel counter = base ∨
      ∃ j, createLoop base existing fuel counter = base ++ " " ++ natStr j := by
  intro fuel
  induction fuel with
  | zero =>
    intro counter
    unfold createLoop
    by_cases h : counter = 1
    · rw [if_pos h]; exact Or.inl rfl
    · rw [if_neg h]; exact Or.inr ⟨counter, rfl⟩
  | succ f ih =>
    intro counter
    simp only [createLoop]
    by_cases h : counter = 1
    · simp only [if_pos h]
      split
      · exact ih (counter + 1)
      · exact Or.inl rfl
    · simp only [if_neg h]
      split
      · exact ih (counter + 1)
      · exact Or.inr ⟨counter, rfl⟩

theorem create_category_name_ne_empty (t : String) (sig : TaskSignals)
    (existing : List String) (h : compute_base_category_name t sig ≠ "") :
    create_category_name t sig existing ≠ "" := by
  unfold create_category_name
  rcases createLoop_shape (compute_base_category_name t sig) existing
      (existing.length + 2) 1 with hs | ⟨j, hs⟩
  · rw [hs]; exact h
  · rw [hs]; exact string_append_space_ne_empty _ _

/-! ## `organize_headers` preserves the set of headers -/

theorem placeUAs_mem_fst (uas : List String) (utb : List (String × String))
    (hd : String) : ∀ (acc : List String × List String) (x : String),
    x ∈ (placeUAs uas utb hd acc).1 → x ∈ acc.1 ∨ x ∈ uas := by
  induction uas with
  | nil => intro acc x h; exact Or.inl h
  | cons u rest ih =>
    intro acc x h
    unfold placeUAs at h
    rw [List.foldl_cons] at h
    rcases ih _ x h with hm | hm
    · split at hm
      · rcases List.mem_append.mp hm with h1 | h1
        · exact Or.inl h1
        · simp at h1
          exact Or.inr (h1 ▸ List.mem_cons_self _ _)
      · exact Or.inl hm
    · exact Or.inr (List.mem_cons_of_mem _ hm)

theorem placeUAs_mem_snd (uas : List String) (utb : List (String × String))
    (hd : String) : ∀ (acc : List String × List String) (x : String),
    x ∈ (placeUAs uas utb hd acc).2 → x ∈ acc.2 ∨ x ∈ uas := by
  induction uas with
  | nil => intro acc x h; exact Or.inl h
  | cons u rest ih =>
    intro acc x h
    unfold placeUAs at h
    rw [List.foldl_cons] at h
    rcases ih _ x h with hm | hm
    · split at hm
      · rcases List.mem_append.mp hm with h1 | h1
        · exact Or.inl h1
        · simp at h1
          exact Or.inr (h1 ▸ List.mem_cons_self _ _)
      · exact Or.inl hm
    · exact Or.inr (List.mem_cons_of_mem _ hm)

theorem placeUAs_fst_mono (uas : List String) (utb : List (String × String))
    (hd : String) : ∀ (acc : List String × List String) (x : String),
    x ∈ acc.1 → x ∈ (placeUAs uas utb hd acc).1 := by
  induction uas with
  | nil => intro acc x h; exact h
  | cons u rest ih =>
    intro acc x h
    unfold placeUAs
    rw [List.foldl_cons]
    apply ih
    split
    · exact List.mem_append_left _ h
    · exact h

theorem placeUAs_placed_sub (uas : List String) (utb : List (String × String))
    (hd : String) : ∀ (acc : List String × List String),
    (∀ x ∈ acc.2, x ∈ acc.1) →
    ∀ x ∈ (placeUAs uas utb hd acc).2, x ∈ (placeUAs uas utb hd acc).1 := by
  induction uas with
  | nil => intro acc hinv x h; exact hinv x h
  | cons u rest ih =>
    intro acc hinv x h
    unfold placeUAs at h ⊢
    rw [List.foldl_cons] at h ⊢
    apply ih _ _ x h
    intro y hy
    split at hy
    · next hc =>
      rw [if_pos hc]
      rcases List.mem_append.mp hy with h1 | h1
      · exact List.mem_append_left _ (hinv y h1)
      · exact List.mem_append_right _ h1
    · next hc =>
      rw [if_neg hc]
      exact hinv y hy

theorem basePass_mem_fst (uas : List String) (utb : List (String × String)) :
    ∀ (nonua : List String) (acc : List String × List String) (x : String),
    x ∈ (basePass uas utb nonua acc).1 → x ∈ acc.1 ∨ x ∈ nonua ∨ x ∈ uas := by
  intro nonua
  induction nonua with
  | nil => intro acc x h; exact Or.inl h
  | cons hd rest ih =>
    intro acc x h
    unfold basePass at h
    rw [List.foldl_cons] at h
    rcases ih _ x h with hm | hm | hm
    · rcases placeUAs_mem_fst uas utb hd _ x hm with h1 | h1
      · rcases List.mem_append.mp h1 with h2 | h2
        · exact Or.inl h2
        · simp at h2
          exact Or.inr (Or.inl (h2 ▸ List.mem_cons_self _ _))
      · exact Or.inr (Or.inr h1)
    · exact Or.inr (Or.inl (List.mem_cons_of_mem _ hm))
    · exact Or.inr (Or.inr hm)

theorem basePass_fst_mono (uas : List String) (utb : List (String × String)) :
    ∀ (nonua : List String) (acc : List String × List String) (x : String),
    x ∈ acc.1 → x ∈ (basePass uas utb nonua acc).1 := by
  intro nonua
  induction nonua with
  | nil => intro acc x h; exact h
  | cons hd rest ih =>
    intro acc x h
    unfold basePass
    rw [List.foldl_cons]
    exact ih _ x (placeUAs_fst_mono uas utb hd _ x (List.mem_append_left _ h))

theorem basePass_nonua_sub (uas : List String) (utb : List (String × String)) :
    ∀ (nonua : List String) (acc : List String × List String) (x : String),
    x ∈ nonua → x ∈ (basePass uas utb nonua acc).1 := by
  intro nonua
  induction nonua with
  | nil => intro acc x h; cases h
  | cons hd rest ih =>
    intro acc x h
    unfold basePass
    rw [List.foldl_cons]
    rcases List.mem_cons.mp h with h1 | h1
    · subst h1
      apply basePass_fst_mono
      exact placeUAs_fst_mono uas utb x _ x (List.mem_append_right _ (by simp))
    · exact ih _ x h1

theorem basePass_placed_sub (uas : List String) (utb : List (String × String)) :
    ∀ (nonua : List String) (acc : List String × List String),
    (∀ x ∈ acc.2, x ∈ acc.1) →
    ∀ x ∈ (basePass uas utb nonua acc).2, x ∈ (basePass uas utb nonua acc).1 := by
  intro nonua
  induction nonua with
  | nil => intro acc hinv x h; exact hinv x h
  | cons hd rest ih =>
    intro acc hinv x h
    unfold basePass at h ⊢
    rw [List.foldl_cons] at h ⊢
    apply ih _ _ x h
    intro y hy
    exact placeUAs_placed_sub uas utb hd (acc.1 ++ [hd], acc.2)
      (fun z hz => List.mem_append_left _ (hinv z hz)) y hy

/-- Every header of the organized list was in the input list. -/
theorem organize_subset (l : List String) (x : String)
    (h : x ∈ organize_headers l) : x ∈ l := by
  unfold organize_headers at h
  rcases List.mem_append.mp h with h1 | h1
  · rcases basePass_mem_fst _ _ _ _ x h1 with hm | hm | hm
    · cases hm
    · exact (List.mem_filter.mp hm).1
    · exact (List.mem_filter.mp hm).1
  · exact (List.mem_filter.mp (List.mem_filter.mp h1).1).1

/-- Every input header survives into the organized list. -/
theorem mem_organize (l : List String) (x : String) (h : x ∈ l) :
    x ∈ organize_headers l := by
  unfold organize_headers
  by_cases hua : pyEndsWith (pyStrip (pyUpper x)) " UA" = true
  · have hxu : x ∈ l.filter (fun h => pyEndsWith (pyStrip (pyUpper h)) " UA") :=
      List.mem_filter.mpr ⟨h, hua⟩
    by_cases hp : x ∈ (basePass (l.filter (fun h => pyEndsWith (pyStrip (pyUpper h)) " UA"))
        (buildUAToBase (l.filter (fun h => pyEndsWith (pyStrip (pyUpper h)) " UA"))
          (l.filter (fun h => !pyEndsWith (pyStrip (pyUpper h)) " UA")))
        (l.filter (fun h => !pyEndsWith (pyStrip (pyUpper h)) " UA")) ([], [])).2
    · exact List.mem_append_left _
        (basePass_placed_sub _ _ _ _ (fun z hz => by cases hz) x hp)
    · refine List.mem_append_right _ (List.mem_filter.mpr ⟨hxu, ?_⟩)
      exact decide_eq_true hp
  · have hxn : x ∈ l.filter (fun h => !pyEndsWith (pyStrip (pyUpper h)) " UA") :=
      List.mem_filter.mpr ⟨h, by simp [hua]⟩
    exact List.mem_append_left _ (basePass_nonua_sub _ _ _ _ x hxn)

/-! ## Summary-row construction lemmas -/

theorem lookup_foldl_dictInsert_not_mem {α : Type} (f : String → α)
    (hs : List String) : ∀ (acc : List (String × α)) (k : String), k ∉ hs →
    List.lookup k (hs.foldl (fun a x => dictInsert a x (f x)) acc)
      = List.lookup k acc := by
  induction hs with
  | nil => intro acc k _; rfl
  | cons x rest ih =>
    intro acc k h
    rw [List.foldl_cons]
    have hx : k ≠ x := fun hc => h (hc ▸ List.mem_cons_self _ _)
    rw [ih _ k (fun hc => h (List.mem_cons_of_mem _ hc))]
    exact lookup_dictInsert_ne acc x k (f x) hx

theorem lookup_foldl_dictInsert_mem {α : Type} (f : String → α)
    (hs : List String) : ∀ (acc : List (String × α)) (k : String), k ∈ hs →
    List.lookup k (hs.foldl (fun a x => dictInsert a x (f x)) acc)
      = some (f k) := by
  induction hs with
  | nil => intro acc k h; cases h
  | cons x rest ih =>
    intro acc k h
    rw [List.foldl_cons]
    by_cases hr : k ∈ rest
    · exact ih _ k hr
    · have hx : k = x := by
        rcases List.mem_cons.mp h with h1 | h1
        · exact h1
        · exact absurd h1 hr
      subst hx
      rw [lookup_foldl_dictInsert_not_mem f rest _ k hr]
      exact lookup_dictInsert_self acc k (f k)

theorem getNum_buildRow_total (fh : List String) (gk : String × String)
    (cats : List (String × Rat)) :
    getNum (build_summary_row fh gk cats) "total"
      = (cats.map (fun p => p.2)).sum := by
  unfold build_summary_row getNum
  rw [lookup_dictInsert_self]

theorem getNum_buildRow_header (fh : List String) (gk : String × String)
    (cats : List (String × Rat)) (h : String) (hh : h ∈ fh)
    (ht : h ≠ "total") :
    getNum (build_summary_row fh gk cats) h
      = (List.lookup h cats).getD 0 := by
  unfold build_summary_row getNum
  rw [lookup_dictInsert_ne _ _ _ _ ht,
    lookup_foldl_dictInsert_mem (fun x => Value.num ((List.lookup x cats).getD 0)) fh _ h hh]

theorem getStr_buildRow_lot (fh : List String) (gk : String × String)
    (cats : List (String × Rat))
    (hgood : ∀ h ∈ fh, GoodHeader h) :
    getStr (build_summary_row fh gk cats) "lot_block" = gk.1 := by
  unfold build_summary_row getStr
  rw [lookup_dictInsert_ne _ _ _ _ (by decide : "lot_block" ≠ "total"),
    lookup_foldl_dictInsert_not_mem _ fh _ _ (fun hc => (hgood _ hc).1 rfl),
    lookup_dictInsert_ne _ _ _ _ (by decide : "lot_block" ≠ "plan"),
    lookup_dictInsert_self]

theorem getStr_buildRow_plan (fh : List String) (gk : String × String)
    (cats : List (String × Rat))
    (hgood : ∀ h ∈ fh, GoodHeader h) :
    getStr (build_summary_row fh gk cats) "plan" = gk.2 := by
  unfold build_summary_row getStr
  rw [lookup_dictInsert_ne _ _ _ _ (by decide : "plan" ≠ "total"),
    lookup_foldl_dictInsert_not_mem _ fh _ _ (fun hc => (hgood _ hc).2.1 rfl),
    lookup_dictInsert_self]

/-! ## Accumulator lemmas -/

theorem keysOf_outerBump (d : List ((String × String) × List (String × Rat)))
    (gk : String × String) (cat : String) (amt : Rat) :
    keysOf (outerBump d gk cat amt)
      = if gk ∈ keysOf d then keysOf d else keysOf d ++ [gk] := by
  unfold outerBump
  by_cases h : gk ∈ keysOf d
  · rw [if_pos h, if_pos (show gk ∈ d.map (fun p => p.1) from h)]
    unfold keysOf
    rw [List.map_map]
    apply List.map_congr_left
    intro p _
    by_cases hp : p.1 = gk <;> simp [hp]
  · rw [if_neg h, if_neg (show gk ∉ d.map (fun p => p.1) from h), keysOf_append]
    rfl

theorem mem_outerBump (d : List ((String × String) × List (String × Rat)))
    (gk : String × String) (cat : String) (amt : Rat)
    (p : (String × String) × List (String × Rat)) (h : p ∈ outerBump d gk cat amt) :
    p ∈ d ∨ (p.1 = gk ∧ ∃ old, p.2 = innerBump old cat amt ∧ ((gk, old) ∈ d ∨ old = [])) := by
  unfold outerBump at h
  split at h
  · rw [List.mem_map] at h
    obtain ⟨q, hq, hpq⟩ := h
    by_cases hqk : q.1 = gk
    · right
      rw [if_pos hqk] at hpq
      refine ⟨by rw [← hpq]; exact hqk, q.2, by rw [← hpq], Or.inl ?_⟩
      have : q = (gk, q.2) := by
        obtain ⟨q1, q2⟩ := q
        simp only at hqk
        rw [hqk]
      exact this ▸ hq
    · left
      rw [if_neg hqk] at hpq
      exact hpq ▸ hq
  · rw [List.mem_append] at h
    rcases h with h | h
    · exact Or.inl h
    · simp only [List.mem_singleton] at h
      exact Or.inr ⟨by rw [h], [], by rw [h], Or.inr rfl⟩

theorem keysOf_innerBump (m : List (String × Rat)) (cat : String) (amt : Rat) :
    keysOf (innerBump m cat amt)
      = if cat ∈ keysOf m then keysOf m else keysOf m ++ [cat] := by
  unfold innerBump
  by_cases h : cat ∈ keysOf m
  · rw [if_pos h]; exact keysOf_dictInsert_mem m cat _ h
  · rw [if_neg h]; exact keysOf_dictInsert_not_mem m cat _ h

theorem nodup_keys_innerBump (m : List (String × Rat)) (cat : String) (amt : Rat)
    (h : (keysOf m).Nodup) : (keysOf (innerBump m cat amt)).Nodup :=
  nodup_keys_dictInsert m cat _ h

theorem map_replace_of_not_mem_keys {α : Type} (l : List (String × α)) (k : String)
    (v : α) (h : k ∉ keysOf l) :
    l.map (fun p => if p.1 = k then (k, v) else p) = l := by
  induction l with
  | nil => rfl
  | cons p rest ih =>
    have hp : p.1 ≠ k := fun hc => h (by simp [keysOf, hc])
    rw [List.map_cons, if_neg hp, ih (fun hc => h (by simp [keysOf] at hc ⊢; exact Or.inr hc))]

theorem exists_split_of_mem_keys {α : Type} (m : List (String × α)) (k : String)
    (h : k ∈ keysOf m) :
    ∃ v0 l1 l2, m = l1 ++ (k, v0) :: l2 ∧ k ∉ keysOf l1 := by
  induction m with
  | nil => simp [keysOf] at h
  | cons p rest ih =>
    obtain ⟨k0, v0⟩ := p
    by_cases hk : k0 = k
    · subst hk
      exact ⟨v0, [], rest, rfl, by simp [keysOf]⟩
    · have hr : k ∈ keysOf rest := by
        simp only [keysOf, List.map_cons, List.mem_cons] at h
        rcases h with h1 | h1
        · exact absurd h1.symm hk
        · exact h1
      obtain ⟨w, l1, l2, hm, hl1⟩ := ih hr
      refine ⟨w, (k0, v0) :: l1, l2, by rw [hm]; rfl, ?_⟩
      simp only [keysOf, List.map_cons, List.mem_cons]
      push_neg
      exact ⟨fun hc => hk hc.symm, by simpa [keysOf] using hl1⟩

theorem sum_dictInsert (m : List (String × Rat)) (k : String) (v : Rat)
    (hnd : (keysOf m).Nodup) :
    ((dictInsert m k v).map (fun p => p.2)).sum
      = (m.map (fun p => p.2)).sum - ((List.lookup k m).getD 0) + v := by
  by_cases h : k ∈ keysOf m
  · obtain ⟨v0, l1, l2, hm, hl1⟩ := exists_split_of_mem_keys m k h
    subst hm
    have hl2 : k ∉ keysOf l2 := by
      rw [keysOf_append] at hnd
      have := List.Nodup.of_append_right hnd
      simp only [keysOf, List.map_cons, List.nodup_cons] at this
      exact this.1
    rw [dictInsert_of_mem _ _ _ h, List.map_append, List.map_cons,
      map_replace_of_not_mem_keys l1 k _ hl1, if_pos rfl,
      map_replace_of_not_mem_keys l2 k _ hl2,
      lookup_append_of_none _ _ _ (lookup_eq_none_of_not_mem l1 k hl1),
      lookup_cons_self]
    simp only [List.map_append, List.map_cons, List.sum_append, List.sum_cons,
      Option.getD_some]
    ring
  · rw [dictInsert_of_not_mem _ _ _ h,
      lookup_eq_none_of_not_mem m k h, List.map_append, List.sum_append]
    simp

theorem sum_innerBump (m : List (String × Rat)) (cat : String) (amt : Rat)
    (hnd : (keysOf m).Nodup) :
    ((innerBump m cat amt).map (fun p => p.2)).sum
      = (m.map (fun p => p.2)).sum + amt := by
  unfold innerBump
  rw [sum_dictInsert m cat _ hnd]
  ring

/-! ## Auto-created headers carry no lowercase letters -/

theorem char_toUpper_not_lower (c : Char) :
    ¬('a' ≤ Char.toUpper c ∧ Char.toUpper c ≤ 'z') := by
  simp only [Char.toUpper]
  by_cases h : c.toNat ≥ 97 ∧ c.toNat ≤ 122
  · rw [if_pos h]
    rintro ⟨h1, _⟩
    rw [Char.le_def] at h1
    have hv : (c.toNat - 32).isValidChar := by left; omega
    have hval : (Char.ofNat (c.toNat - 32)).toNat = c.toNat - 32 := by
      rw [Char.ofNat, dif_pos hv]; rfl
    have hle : ('a' : Char).val.toNat ≤ (Char.ofNat (c.toNat - 32)).val.toNat := h1
    have ha : ('a' : Char).val.toNat = 97 := by decide
    have ht : (Char.ofNat (c.toNat - 32)).toNat
        = (Char.ofNat (c.toNat - 32)).val.toNat := rfl
    omega
  · rw [if_neg h]
    rintro ⟨h1, h2⟩
    rw [Char.le_def] at h1 h2
    apply h
    have g1 : ('a' : Char).val.toNat ≤ c.val.toNat := h1
    have g2 : c.val.toNat ≤ ('z' : Char).val.toNat := h2
    have ha : ('a' : Char).val.toNat = 97 := by decide
    have hz : ('z' : Char).val.toNat = 122 := by decide
    have hc : c.toNat = c.val.toNat := rfl
    constructor
    · show 97 ≤ c.toNat
      omega
    · show c.toNat ≤ 122
      omega

theorem okChar_iff (c : Char) : okChar c = true ↔ ¬('a' ≤ c ∧ c ≤ 'z') := by
  constructor
  · intro h hab
    have hd : (decide ('a' ≤ c) && decide (c ≤ 'z')) = true := by
      simp [hab.1, hab.2]
    rw [okChar, hd] at h
    exact absurd h (by decide)
  · intro h
    rw [okChar]
    by_cases h1 : 'a' ≤ c
    · by_cases h2 : c ≤ 'z'
      · exact absurd ⟨h1, h2⟩ h
      · simp [h2]
    · simp [h1]

theorem okChar_toUpper (c : Char) : okChar (Char.toUpper c) = true :=
  (okChar_iff _).mpr (char_toUpper_not_lower c)

theorem mem_collapseWS (l : List Char) (c : Char) (h : c ∈ collapseWS l) :
    c ∈ l ∨ c = ' ' := by
  induction l with
  | nil => cases h
  | cons a rest ih =>
    cases rest with
    | nil =>
      unfold collapseWS at h
      split at h
      · simp at h
        exact Or.inr h
      · simp at h
        exact Or.inl (by simp [h])
    | cons b rest2 =>
      unfold collapseWS at h
      split at h
      · split at h
        · rcases ih h with h1 | h1
          · exact Or.inl (List.mem_cons_of_mem _ h1)
          · exact Or.inr h1
        · rcases List.mem_cons.mp h with h1 | h1
          · exact Or.inr h1
          · rcases ih h1 with h2 | h2
            · exact Or.inl (List.mem_cons_of_mem _ h2)
            · exact Or.inr h2
      · rcases List.mem_cons.mp h with h1 | h1
        · exact Or.inl (by simp [h1])
        · rcases ih h1 with h2 | h2
          · exact Or.inl (List.mem_cons_of_mem _ h2)
          · exact Or.inr h2

theorem mem_dropTrail (p : Char → Bool) (l : List Char) (c : Char)
    (h : c ∈ dropTrail p l) : c ∈ l := by
  unfold dropTrail at h
  rw [List.mem_reverse] at h
  have := (List.dropWhile_sublist p (l := l.reverse)).mem h
  rwa [List.mem_reverse] at this

theorem mem_stripL (l : List Char) (c : Char) (h : c ∈ stripL l) : c ∈ l := by
  unfold stripL at h
  exact (List.dropWhile_sublist _ (l := l)).mem (mem_dropTrail _ _ _ h)

theorem mem_cutLastSpace (l : List Char) (c : Char) (h : c ∈ cutLastSpace l) :
    c ∈ l := by
  simp only [cutLastSpace] at h
  split at h
  · rw [List.mem_reverse] at h
    have h2 := (List.drop_sublist 1 _).mem h
    have h3 := (List.dropWhile_sublist _ (l := l.reverse)).mem h2
    rwa [List.mem_reverse] at h3
  · exact h

theorem noLower_data (l : List Char) :
    noLower (String.mk l) = true ↔ ∀ c ∈ l, okChar c = true := by
  simp [noLower, List.all_eq_true]

theorem noLower_append (s t : String) (hs : noLower s = true)
    (ht : noLower t = true) : noLower (s ++ t) = true := by
  unfold noLower at *
  rw [String.data_append, List.all_append, hs, ht]
  rfl

theorem noLower_pyStrip (s : String) (h : noLower s = true) :
    noLower (pyStrip s) = true := by
  unfold noLower at *
  rw [List.all_eq_true] at *
  intro c hc
  exact h c (mem_stripL _ _ hc)

theorem noLower_pyRStrip (s : String) (chars : List Char)
    (h : noLower s = true) : noLower (pyRStrip s chars) = true := by
  unfold noLower at *
  rw [List.all_eq_true] at *
  intro c hc
  exact h c (mem_dropTrail _ _ _ hc)

theorem noLower_truncate_step (sig : TaskSignals) (name : String)
    (h : noLower name = true) : noLower (truncate_step sig name) = true := by
  have hx : ∀ N : Nat,
      noLower (pyRStrip (String.mk (cutLastSpace (List.take N name.data)))
        [' ', '/', '-', '&']) = true := by
    intro N
    apply noLower_pyRStrip
    rw [noLower_data]
    intro c hc
    have h1 := mem_cutLastSpace _ _ hc
    have h2 := (List.take_sublist _ _).mem h1
    unfold noLower at h
    rw [List.all_eq_true] at h
    exact h c h2
  simp only [truncate_step]
  repeat' split
  all_goals first | exact hx _ | exact h

theorem noLower_ua_suffix_step (sig : TaskSignals) (name : String)
    (h : noLower name = true) : noLower (ua_suffix_step sig name) = true := by
  unfold ua_suffix_step
  split
  · exact noLower_append _ _ h (by decide)
  · exact h

theorem noLower_compute_base (t : String) (sig : TaskSignals) :
    noLower (compute_base_category_name t sig) = true := by
  have hcore : ∀ (fr : String),
      noLower (pyStrip (String.mk (collapseWS (pyUpper fr).data))) = true := by
    intro fr
    apply noLower_pyStrip
    rw [noLower_data]
    intro c hc
    rcases mem_collapseWS _ _ hc with h1 | h1
    · unfold pyUpper at h1
      simp only [List.mem_map] at h1
      obtain ⟨d, _, hd⟩ := h1
      rw [← hd]
      exact okChar_toUpper d
    · rw [h1]
      decide
  simp only [compute_base_category_name]
  apply noLower_ua_suffix_step
  apply noLower_truncate_step
  repeat' split
  all_goals first
    | exact noLower_append "EXT " _ (by decide) (hcore _)
    | exact noLower_append "INT " _ (by decide) (hcore _)
    | exact hcore _

theorem okChar_digit (m : Nat) (h : m < 10) :
    okChar (Char.ofNat (48 + m)) = true := by
  interval_cases m <;> decide

theorem natRevDigits_all_ok (n : Nat) : (natRevDigits n).all okChar = true := by
  induction n using Nat.strong_induction_on with
  | _ n ih =>
    match n with
    | 0 => simp [natRevDigits]
    | m + 1 =>
      rw [natRevDigits, List.all_cons]
      have h1 := okChar_digit ((m + 1) % 10) (Nat.mod_lt _ (by decide))
      have h2 := ih ((m + 1) / 10) (Nat.div_lt_self (Nat.succ_pos m) (by decide))
      rw [h1, h2]
      rfl

theorem noLower_natStr (n : Nat) : noLower (natStr n) = true := by
  unfold natStr
  split
  · decide
  · rw [noLower_data]
    intro c hc
    rw [List.mem_reverse] at hc
    have := natRevDigits_all_ok n
    rw [List.all_eq_true] at this
    exact this c hc

theorem noLower_create (t : String) (sig : TaskSignals) (ex : List String) :
    noLower (create_category_name t sig ex) = true := by
  unfold create_category_name
  rcases createLoop_shape (compute_base_category_name t sig) ex (ex.length + 2) 1
      with hs | ⟨j, hs⟩
  · rw [hs]
    exact noLower_compute_base t sig
  · rw [hs]
    exact noLower_append _ _
      (noLower_append _ _ (noLower_compute_base t sig) (by decide))
      (noLower_natStr j)

theorem GoodHeader_of_noLower (h : String) (hn : noLower h = true) :
    GoodHeader h := by
  refine ⟨?_, ?_, ?_⟩ <;> intro hc <;> rw [hc] at hn <;> exact absurd hn (by decide)

/-! ## Case analysis of `map_task` -/

/-- Either the call does not create (state unchanged, display drawn from the
template map), or it creates: the display is the fresh name, appended to the
headers, inserted into the canonical map and recorded among the created
canonicals. -/
theorem map_task_cases (st : MapperState) (t : String) :
    ((map_task st t).2 = st ∧
     (map_task st t).1.is_new_category = false ∧
     ∃ k, List.lookup k st.template_canon_to_display
        = some (map_task st t).1.category_display) ∨
    ((map_task st t).1.is_new_category = true ∧
     (map_task st t).1.category_display
        = create_category_name t (parse_signals t) (get_all_canonicals st) ∧
     (map_task st t).2.category_headers
        = st.category_headers ++ [(map_task st t).1.category_display] ∧
     (map_task st t).2.template_canon_to_display
        = dictInsert st.template_canon_to_display
            (canonical (map_task st t).1.category_display)
            (map_task st t).1.category_display ∧
     (map_task st t).2.created_canonicals
        = st.created_canonicals ++ [canonical (map_task st t).1.category_display]) := by
  simp only [map_task]
  rcases hmc : map_category t (parse_signals t) st.template_canon_to_display with ⟨cd, r⟩
  simp only [hmc]
  cases cd with
  | some d =>
    left
    refine ⟨rfl, rfl, map_category_some t (parse_signals t) _ d (by rw [hmc])⟩
  | none =>
    cases hlk : List.lookup (canonical (compute_base_category_name t (parse_signals t)))
        st.template_canon_to_display with
    | some d =>
      left
      simp only [hlk]
      exact ⟨trivial, trivial, ⟨_, hlk⟩⟩
    | none =>
      right
      simp only [hlk]
      exact ⟨trivial, trivial, trivial, trivial, trivial⟩

theorem add_example_headers (st : MapperState) (c t : String) :
    (add_example_to_created_category st c t).category_headers
      = st.category_headers := rfl

theorem add_example_canonMap (st : MapperState) (c t : String) :
    (add_example_to_created_category st c t).template_canon_to_display
      = st.template_canon_to_display := rfl

/-- The display returned by `map_task` sits in the successor state's headers,
provided every template-map value is a header (an invariant of reachable
states). -/
theorem map_task_display_mem (st : MapperState) (t : String)
    (hv : ValuesInHeaders st) :
    (map_task st t).1.category_display ∈ (map_task st t).2.category_headers := by
  rcases map_task_cases st t with ⟨hst, _, k, hk⟩ | ⟨_, _, hh, _, _⟩
  · rw [hst]
    exact hv _ (mem_of_lookup _ _ _ hk)
  · rw [hh]
    exact List.mem_append_right _ (by simp)

theorem map_task_headers_mono (st : MapperState) (t : String) (x : String)
    (h : x ∈ st.category_headers) : x ∈ (map_task st t).2.category_headers := by
  rcases map_task_cases st t with ⟨hst, _⟩ | ⟨_, _, hh, _, _⟩
  · rw [hst]; exact h
  · rw [hh]; exact List.mem_append_left _ h

theorem map_task_values (st : MapperState) (t : String)
    (hv : ValuesInHeaders st) : ValuesInHeaders (map_task st t).2 := by
  rcases map_task_cases st t with ⟨hst, _⟩ | ⟨_, _, hh, hm, _⟩
  · rw [hst]; exact hv
  · intro p hp
    rw [hm] at hp
    rcases mem_dictInsert _ _ _ _ hp with hold | hnew
    · rw [hh]
      exact List.mem_append_left _ (hv _ hold)
    · rw [hh, hnew]
      exact List.mem_append_right _ (by simp)

/-! ## Component equations of `agg_step` on a non-empty task -/

theorem agg_step_aggData (st : AggState) (row : ParsedRow)
    (h : ¬effective_task row = "") :
    (agg_step st row).aggregated_data
      = outerBump st.aggregated_data (group_key row)
          ((map_task st.mapper (effective_task row)).1.category_display)
          (amount_of row) := by
  simp only [agg_step, if_neg h]

theorem agg_step_appearance (st : AggState) (row : ParsedRow)
    (h : ¬effective_task row = "") :
    (agg_step st row).appearance_order
      = (if (List.lookup (group_key row) st.appearance_order).isSome then
          st.appearance_order
         else st.appearance_order ++ [(group_key row, st.appearance_order.length)]) := by
  simp only [agg_step, if_neg h]

theorem agg_step_counts (st : AggState) (row : ParsedRow)
    (h : ¬effective_task row = "") :
    (agg_step st row).counts_per_category
      = bumpCount st.counts_per_category
          ((map_task st.mapper (effective_task row)).1.category_display) := by
  simp only [agg_step, if_neg h]

theorem agg_step_mapper (st : AggState) (row : ParsedRow)
    (h : ¬effective_task row = "") :
    (agg_step st row).mapper
      = (if (map_task st.mapper (effective_task row)).1.is_new_category then
          add_example_to_created_category
            (map_task st.mapper (effective_task row)).2
            (map_task st.mapper (effective_task row)).1.category_display
            (effective_task row)
         else (map_task st.mapper (effective_task row)).2) := by
  simp only [agg_step, if_neg h]

theorem agg_step_mapper_headers (st : AggState) (row : ParsedRow) :
    (agg_step st row).mapper.category_headers
      = (map_task st.mapper (effective_task row)).2.category_headers ∨
    (agg_step st row).mapper = st.mapper := by
  by_cases h : effective_task row = ""
  · right
    simp only [agg_step, if_pos h]
  · left
    rw [agg_step_mapper st row h]
    split
    · exact add_example_headers _ _ _
    · rfl

/-! ## Header provenance invariant through the aggregation loop -/

theorem mkMapper_headersFrom (tmpl : Option (List String)) :
    HeadersFrom tmpl (mkMapper tmpl) :=
  fun h hm => Or.inl hm

theorem map_task_headersFrom (tmpl : Option (List String)) (st : MapperState)
    (t : String) (hf : HeadersFrom tmpl st) :
    HeadersFrom tmpl (map_task st t).2 := by
  rcases map_task_cases st t with ⟨hst, _⟩ | ⟨_, hdisp, hh, _, _⟩
  · rw [hst]; exact hf
  · intro h hm
    rw [hh] at hm
    rcases List.mem_append.mp hm with h1 | h1
    · exact hf h h1
    · simp only [List.mem_singleton] at h1
      right
      rw [h1, hdisp]
      exact noLower_create _ _ _

theorem agg_step_headersFrom (tmpl : Option (List String)) (st : AggState)
    (row : ParsedRow) (hf : HeadersFrom tmpl st.mapper) :
    HeadersFrom tmpl (agg_step st row).mapper := by
  by_cases h : effective_task row = ""
  · simp only [agg_step, if_pos h]
    exact hf
  · rw [agg_step_mapper st row h]
    split
    · intro x hx
      rw [add_example_headers] at hx
      exact map_task_headersFrom tmpl st.mapper _ hf x hx
    · exact map_task_headersFrom tmpl st.mapper _ hf

theorem agg_step_values (st : AggState) (row : ParsedRow)
    (hv : ValuesInHeaders st.mapper) : ValuesInHeaders (agg_step st row).mapper := by
  by_cases h : effective_task row = ""
  · simp only [agg_step, if_pos h]
    exact hv
  · rw [agg_step_mapper st row h]
    split
    · intro p hp
      rw [add_example_canonMap] at hp
      rw [add_example_headers]
      exact map_task_values st.mapper _ hv p hp
    · exact map_task_values st.mapper _ hv

theorem foldl_headersFrom (tmpl : Option (List String)) (rows : List ParsedRow) :
    ∀ (st : AggState), HeadersFrom tmpl st.mapper →
    HeadersFrom tmpl (rows.foldl agg_step st).mapper := by
  induction rows with
  | nil => intro st h; exact h
  | cons row rest ih =>
    intro st h
    rw [List.foldl_cons]
    exact ih _ (agg_step_headersFrom tmpl st row h)

theorem foldl_values (rows : List ParsedRow) :
    ∀ (st : AggState), ValuesInHeaders st.mapper →
    ValuesInHeaders (rows.foldl agg_step st).mapper := by
  induction rows with
  | nil => intro st h; exact h
  | cons row rest ih =>
    intro st h
    rw [List.foldl_cons]
    exact ih _ (agg_step_values st row h)

theorem mkMapper_values (tmpl : Option (List String)) :
    ValuesInHeaders (mkMapper tmpl) := by
  intro p hp
  obtain ⟨x, hx, hpx⟩ := mkMapper_canonMap_mem tmpl p hp
  rw [hpx]
  exact hx

/-! ## Appearance-order infrastructure for order preservation -/

theorem lookup_self_of_nodup {κ α : Type} [DecidableEq κ] [BEq κ] [LawfulBEq κ]
    (m : List (κ × α)) (p : κ × α) (hp : p ∈ m) (hnd : (keysOf m).Nodup) :
    List.lookup p.1 m = some p.2 := by
  induction m with
  | nil => cases hp
  | cons q rest ih =>
    rcases List.mem_cons.mp hp with h1 | h1
    · subst h1
      obtain ⟨k, v⟩ := p
      exact lookup_cons_self rest k v
    · obtain ⟨k0, v0⟩ := q
      have hk : p.1 ≠ k0 := by
        intro hc
        simp only [keysOf, List.map_cons, List.nodup_cons] at hnd
        exact hnd.1 (hc ▸ List.mem_map_of_mem (fun p => p.1) h1)
      rw [lookup_cons_ne _ _ _ _ hk]
      apply ih h1
      simp only [keysOf, List.map_cons, List.nodup_cons] at hnd
      exact hnd.2

theorem agg_step_order_inv (st : AggState) (row : ParsedRow)
    (h1 : keysOf st.appearance_order = keysOf st.aggregated_data)
    (h2 : st.appearance_order.map (fun p => p.2)
        = List.range st.appearance_order.length)
    (h3 : (keysOf st.aggregated_data).Nodup) :
    keysOf (agg_step st row).appearance_order
        = keysOf (agg_step st row).aggregated_data ∧
    (agg_step st row).appearance_order.map (fun p => p.2)
        = List.range (agg_step st row).appearance_order.length ∧
    (keysOf (agg_step st row).aggregated_data).Nodup := by
  by_cases he : effective_task row = ""
  · simp only [agg_step, if_pos he]
    exact ⟨h1, h2, h3⟩
  · rw [agg_step_aggData st row he, agg_step_appearance st row he,
      keysOf_outerBump]
    by_cases hg : group_key row ∈ keysOf st.aggregated_data
    · have hap : (List.lookup (group_key row) st.appearance_order).isSome := by
        rw [lookup_isSome_iff_mem_keys, h1]
        exact hg
      rw [if_pos hap, if_pos hg]
      exact ⟨h1, h2, h3⟩
    · have hap : ¬(List.lookup (group_key row) st.appearance_order).isSome = true := by
        rw [lookup_isSome_iff_mem_keys, h1]
        exact hg
      rw [if_neg hap, if_neg hg]
      refine ⟨?_, ?_, ?_⟩
      · rw [keysOf_append, h1]
        rfl
      · rw [List.map_append, h2, List.length_append]
        simp [List.range_succ]
      · simpa [List.nodup_append] using ⟨h3, hg⟩

theorem foldl_order_inv (rows : List ParsedRow) : ∀ (st : AggState),
    (keysOf st.appearance_order = keysOf st.aggregated_data ∧
     st.appearance_order.map (fun p => p.2)
        = List.range st.appearance_order.length ∧
     (keysOf st.aggregated_data).Nodup) →
    (keysOf (rows.foldl agg_step st).appearance_order
        = keysOf (rows.foldl agg_step st).aggregated_data ∧
     (rows.foldl agg_step st).appearance_order.map (fun p => p.2)
        = List.range (rows.foldl agg_step st).appearance_order.length ∧
     (keysOf (rows.foldl agg_step st).aggregated_data).Nodup) := by
  induction rows with
  | nil => intro st h; exact h
  | cons row rest ih =>
    intro st h
    rw [List.foldl_cons]
    exact ih _ (agg_step_order_inv st row h.1 h.2.1 h.2.2)

theorem keysOf_agg_step_aggData (st : AggState) (row : ParsedRow) :
    keysOf (agg_step st row).aggregated_data =
      (if effective_task row = "" then keysOf st.aggregated_data
       else if group_key row ∈ keysOf st.aggregated_data then
         keysOf st.aggregated_data
       else keysOf st.aggregated_data ++ [group_key row]) := by
  by_cases he : effective_task row = ""
  · simp only [agg_step, if_pos he]
  · rw [agg_step_aggData st row he, keysOf_outerBump, if_neg he]

theorem foldl_keys_spec (rows : List ParsedRow) : ∀ (st : AggState),
    keysOf (rows.foldl agg_step st).aggregated_data =
      rows.foldl (fun acc row =>
        if effective_task row = "" then acc
        else if group_key row ∈ acc then acc else acc ++ [group_key row])
        (keysOf st.aggregated_data) := by
  induction rows with
  | nil => intro st; rfl
  | cons row rest ih =>
    intro st
    rw [List.foldl_cons, List.foldl_cons, ih, keysOf_agg_step_aggData]

/-- The headers of the reachable aggregation state are all good when the
effective template's are. -/
theorem final_headers_good (rows : List ParsedRow) (tmpl : Option (List String))
    (hgood : ∀ h ∈ (mkMapper tmpl).category_headers, GoodHeader h) :
    ∀ h ∈ (aggregate_data rows tmpl).2.2, GoodHeader h := by
  intro h hh
  simp only [aggregate_data] at hh
  have h1 := organize_subset _ _ hh
  have h2 := (List.mem_filter.mp h1).1
  have h3 := foldl_headersFrom tmpl rows (initAggState tmpl)
    (mkMapper_headersFrom tmpl) h h2
  rcases h3 with h4 | h4
  · exact hgood h h4
  · exact GoodHeader_of_noLower h h4

/-! ## Claim C8 -/

/-- C8: the summary rows output by `aggregate_data` are ordered by the first
appearance of their `(cleaned_lot, combined_plan)` group key in the input
(rows with empty tasks are skipped): the sequence of group keys read off the
output equals the first-seen sequence of the input's group keys, not an
alphabetical or numeric ordering. The template headers are assumed not to
collide with the fixed `lot_block`, `plan` and `total` row keys (the
documented shape of a template: the category columns between PLAN and
TOTAL). -/
theorem C8_first_appearance_order (rows : List ParsedRow)
    (tmpl : Option (List String))
    (hgood : ∀ h ∈ (mkMapper tmpl).category_headers, GoodHeader h) :
    (aggregate_data rows tmpl).1.map
      (fun r => (getStr r "lot_block", getStr r "plan"))
      = specFirstSeenGroups rows := by
  have hfh : ∀ h ∈ (aggregate_data rows tmpl).2.2, GoodHeader h :=
    final_headers_good rows tmpl hgood
  obtain ⟨hmap, henum, hnd⟩ := foldl_order_inv rows (initAggState tmpl)
    ⟨rfl, rfl, List.nodup_nil⟩
  simp only [aggregate_data] at hfh ⊢
  have hndap : (keysOf (rows.foldl agg_step (initAggState tmpl)).appearance_order).Nodup := by
    rw [hmap]; exact hnd
  have hkey : ∀ p : (String × String) × List (String × Rat),
      (getStr (build_summary_row
          (organize_headers ((get_category_headers
            (rows.foldl agg_step (initAggState tmpl)).mapper).filter
            (fun h => ((List.lookup h
              (rows.foldl agg_step (initAggState tmpl)).counts_per_category).getD 0) > 0)))
          p.1 p.2) "lot_block",
       getStr (build_summary_row
          (organize_headers ((get_category_headers
            (rows.foldl agg_step (initAggState tmpl)).mapper).filter
            (fun h => ((List.lookup h
              (rows.foldl agg_step (initAggState tmpl)).counts_per_category).getD 0) > 0)))
          p.1 p.2) "plan") = p.1 := by
    intro p
    rw [getStr_buildRow_lot _ _ _ hfh, getStr_buildRow_plan _ _ _ hfh]
  have hpair0 : (rows.foldl agg_step (initAggState tmpl)).appearance_order.Pairwise
      (fun p q => p.2 ≤ q.2) := by
    have hlt := List.pairwise_lt_range
      (rows.foldl agg_step (initAggState tmpl)).appearance_order.length
    rw [← henum] at hlt
    exact (List.pairwise_map.mp hlt).imp (fun h => le_of_lt h)
  have hpairA : (rows.foldl agg_step (initAggState tmpl)).appearance_order.Pairwise
      (fun p q => apLe
        (List.lookup p.1 (rows.foldl agg_step (initAggState tmpl)).appearance_order)
        (List.lookup q.1 (rows.foldl agg_step (initAggState tmpl)).appearance_order)) := by
    refine hpair0.imp_of_mem ?_
    intro a b ha hb hle
    rw [lookup_self_of_nodup _ a ha hndap, lookup_self_of_nodup _ b hb hndap]
    exact hle
  have hpairK : (keysOf (rows.foldl agg_step (initAggState tmpl)).appearance_order).Pairwise
      (fun k k' => apLe
        (List.lookup k (rows.foldl agg_step (initAggState tmpl)).appearance_order)
        (List.lookup k' (rows.foldl agg_step (initAggState tmpl)).appearance_order)) :=
    List.pairwise_map.mpr hpairA
  rw [hmap] at hpairK
  simp only [keysOf] at hpairK
  have hpairAgg : (rows.foldl agg_step (initAggState tmpl)).aggregated_data.Pairwise
      (fun p q => apLe
        (List.lookup p.1 (rows.foldl agg_step (initAggState tmpl)).appearance_order)
        (List.lookup q.1 (rows.foldl agg_step (initAggState tmpl)).appearance_order)) :=
    List.Pairwise.of_map (fun p => p.1) (fun _ _ h => h) hpairK
  have hsorted : List.Sorted
      (fun x y => apLe
        (rowIdx (rows.foldl agg_step (initAggState tmpl)).appearance_order x)
        (rowIdx (rows.foldl agg_step (initAggState tmpl)).appearance_order y))
      ((rows.foldl agg_step (initAggState tmpl)).aggregated_data.map
        (fun p => build_summary_row
          (organize_headers ((get_category_headers
            (rows.foldl agg_step (initAggState tmpl)).mapper).filter
            (fun h => ((List.lookup h
              (rows.foldl agg_step (initAggState tmpl)).counts_per_category).getD 0) > 0)))
          p.1 p.2)) := by
    refine List.pairwise_map.mpr ?_
    refine hpairAgg.imp_of_mem ?_
    intro a b _ _ hle
    unfold rowIdx
    rw [hkey a, hkey b]
    exact hle
  rw [List.Sorted.insertionSort_eq hsorted, List.map_map]
  have hcongr : ∀ p ∈ (rows.foldl agg_step (initAggState tmpl)).aggregated_data,
      ((fun r => (getStr r "lot_block", getStr r "plan")) ∘
        (fun p => build_summary_row
          (organize_headers ((get_category_headers
            (rows.foldl agg_step (initAggState tmpl)).mapper).filter
            (fun h => ((List.lookup h
              (rows.foldl agg_step (initAggState tmpl)).counts_per_category).getD 0) > 0)))
          p.1 p.2)) p = p.1 := by
    intro p _
    exact hkey p
  rw [List.map_congr_left hcongr]
  exact foldl_keys_spec rows (initAggState tmpl)

/-- Witness for C8: four rows with group pattern `A, B, A, C` come out in
first-appearance order `A, B, C`, which is neither alphabetical nor
numeric. -/
theorem C8_witness :
    (∀ h ∈ (mkMapper none).category_headers, GoodHeader h) ∧
    (aggregate_data c8_rows none).1.map
      (fun r => (getStr r "lot_block", getStr r "plan"))
      = specFirstSeenGroups c8_rows ∧
    specFirstSeenGroups c8_rows = [("3", "1"), ("1", "2"), ("2", "9")] :=
  ⟨by decide, C8_first_appearance_order c8_rows none (by decide), by decide⟩

/-! ## Claim C9 -/

/-- C9: for a row whose task text is empty or missing (both collapse to an
empty `effective_task`), the aggregation loop body increments exactly the
`UNMAPPED` bucket of `counts_per_category` (the `counts_per_bucket` of the
final QA report) and records the `(empty task)` marker, while the dollar
accumulator, the appearance order and the mapper are left untouched — so
the row's amount (even a non-null one) reaches no category column and no
summary-row total. -/
theorem C9_empty_task_only_counts (st : AggState) (row : ParsedRow)
    (h : effective_task row = "") :
    (agg_step st row).counts_per_category
        = bumpCount st.counts_per_category "UNMAPPED" ∧
    (agg_step st row).unmapped_tasks = st.unmapped_tasks ++ ["(empty task)"] ∧
    (agg_step st row).aggregated_data = st.aggregated_data ∧
    (agg_step st row).appearance_order = st.appearance_order ∧
    (agg_step st row).mapper = st.mapper := by
  unfold agg_step
  rw [if_pos h]
  exact ⟨rfl, rfl, rfl, rfl, rfl⟩

/-- Witness for C9: a row with a 50-dollar total and no task text. -/
theorem C9_witness :
    effective_task c9_row = "" ∧
    ((agg_step (initAggState none) c9_row).counts_per_category
        = bumpCount (initAggState none).counts_per_category "UNMAPPED" ∧
     (agg_step (initAggState none) c9_row).unmapped_tasks
        = (initAggState none).unmapped_tasks ++ ["(empty task)"] ∧
     (agg_step (initAggState none) c9_row).aggregated_data
        = (initAggState none).aggregated_data ∧
     (agg_step (initAggState none) c9_row).appearance_order
        = (initAggState none).appearance_order ∧
     (agg_step (initAggState none) c9_row).mapper = (initAggState none).mapper) :=
  ⟨rfl, C9_empty_task_only_counts (initAggState none) c9_row rfl⟩

/-! ## Claim C10 -/

/-- C10: whenever `CategoryMapper.map_task` returns a `MappingResult` with
`is_new_category = false` (a template match or a reuse of a previously
created category), the mapper's state is unchanged by the call:
`category_headers`, `template_canon_to_display`, `created_categories` and
the set of created canonicals are all exactly as they were before. -/
theorem C10_not_new_leaves_state_unchanged (st : MapperState) (t : String)
    (h : (map_task st t).1.is_new_category = false) :
    (map_task st t).2.category_headers = st.category_headers ∧
    (map_task st t).2.template_canon_to_display = st.template_canon_to_display ∧
    (map_task st t).2.created_categories = st.created_categories ∧
    (map_task st t).2.created_canonicals = st.created_canonicals := by
  rw [map_task_state_of_not_new st t h]
  exact ⟨rfl, rfl, rfl, rfl⟩

/-- Witness for C10 at a concrete non-creating call: mapping a touch-up task
against the default template matches the template and leaves the state
unchanged. -/
theorem C10_witness :
    (map_task (mkMapper none) c10_task).1.is_new_category = false ∧
    ((map_task (mkMapper none) c10_task).2.category_headers
        = (mkMapper none).category_headers ∧
     (map_task (mkMapper none) c10_task).2.template_canon_to_display
        = (mkMapper none).template_canon_to_display ∧
     (map_task (mkMapper none) c10_task).2.created_categories
        = (mkMapper none).created_categories ∧
     (map_task (mkMapper none) c10_task).2.created_canonicals
        = (mkMapper none).created_canonicals) :=
  ⟨rfl, C10_not_new_leaves_state_unchanged (mkMapper none) c10_task rfl⟩

/-! ## Claim C3 -/

/-- C3 counterexample: the non-empty task text of 36 ampersands drives
`map_task` (fresh mapper, default template) to a `category_display` that is
the empty string — the scope fragment survives extraction, exceeds the
35-character cap, truncation has no word boundary to cut at, and the
trailing-separator cleanup erases everything — refuting the claim that the
returned `category_display` is always non-empty. -/
theorem C3_counterexample :
    c3_task ≠ "" ∧
    (map_task (mkMapper none) c3_task).1.category_display = "" :=
  ⟨by decide, rfl⟩

/-- C3 (amended): `map_task` is a total function returning a `MappingResult`
for every task string and mapper (the embedding of the core is exception
free by construction), and the returned `category_display` is never null; it
is moreover non-empty whenever the template headers are non-empty and the
synthesized base category name of the text is non-empty — the display can be
empty only in the pathological case where the base name itself collapses to
the empty string (for example 36 ampersands). -/
theorem C3_display_nonempty_amended (tmpl : Option (List String)) (t : String)
    (hne : ∀ h ∈ (mkMapper tmpl).category_headers, h ≠ "") :
    (map_task (mkMapper tmpl) t).1.category_display ≠ "" ∨
    compute_base_category_name t (parse_signals t) = "" := by
  by_cases hb : compute_base_category_name t (parse_signals t) = ""
  · exact Or.inr hb
  · left
    simp only [map_task]
    rcases hmc : map_category t (parse_signals t)
        (mkMapper tmpl).template_canon_to_display with ⟨cd, r⟩
    simp only [hmc]
    cases cd with
    | some d =>
      obtain ⟨k, hk⟩ := map_category_some _ _ _ d (by rw [hmc])
      obtain ⟨x, hx, hpx⟩ := mkMapper_canonMap_mem tmpl _ (mem_of_lookup _ _ _ hk)
      have hd : d = x := congrArg Prod.snd hpx
      simpa [hd] using hne x hx
    | none =>
      cases hlk : List.lookup
          (canonical (compute_base_category_name t (parse_signals t)))
          (mkMapper tmpl).template_canon_to_display with
      | some d =>
        simp only [hlk]
        obtain ⟨x, hx, hpx⟩ := mkMapper_canonMap_mem tmpl _ (mem_of_lookup _ _ _ hlk)
        have hd : d = x := congrArg Prod.snd hpx
        simpa [hd] using hne x hx
      | none =>
        simp only [hlk]
        exact create_category_name_ne_empty t (parse_signals t) _ hb

/-- Witness for C3 (amended) at the default template and a concrete task. -/
theorem C3_witness :
    (∀ h ∈ (mkMapper none).category_headers, h ≠ "") ∧
    ((map_task (mkMapper none) "Painting - Exterior (EXT)").1.category_display ≠ "" ∨
     compute_base_category_name "Painting - Exterior (EXT)"
       (parse_signals "Painting - Exterior (EXT)") = "") :=
  ⟨by decide, C3_display_nonempty_amended none "Painting - Exterior (EXT)" (by decide)⟩

/-! ## Claim C7 -/

/-- C7: with template `EXT PRIME, EXTERIOR, EXTERIOR UA, INTERIOR`,
`map_task` on `Painting - Spray Overhang (EXT) [UA]` returns a new category
whose name contains `SPRAY OVERHANG` and `UA` with
`is_new_category = true`, and the returned category is not `EXTERIOR UA`:
the distinctive scope does not collapse into the generic exterior-UA
bucket. -/
theorem C7_distinctive_scope_not_generic :
    c7_call.1.is_new_category = true ∧
    pyContains c7_call.1.category_display "SPRAY OVERHANG" = true ∧
    pyContains c7_call.1.category_display "UA" = true ∧
    c7_call.1.category_display ≠ "EXTERIOR UA" :=
  ⟨rfl, rfl, rfl, by decide⟩

/-! ## Claim C5 -/

/-- C5 counterexample: the task text
`Guardrail panels alpha beta gamma delta [UA]` has a scope fragment of 39
characters (at least 35) and `is_ua` true, yet the synthesized base name
does not end in the UA suffix: `UA` already occurs inside `GUARDRAIL`, so
the source skips the suffix entirely (the claim asserts the name always
ends with the suffix). -/
theorem C5_counterexample :
    (parse_signals c5_task).is_ua = true ∧
    35 ≤ (extract_scope_fragment c5_task).data.length ∧
    pyEndsWith (compute_base_category_name c5_task (parse_signals c5_task))
      " UA" = false :=
  ⟨rfl, by decide, rfl⟩

/-- C5 (amended): for any task text and signals with `is_ua` true (scope
fragments of any length included), the name returned by
`compute_base_category_name` ends with the suffix `n UA` unless the
truncated name already contains `UA` as a substring, in which case the
source appends no suffix: the result always either ends with the suffix or
contains `UA`. -/
theorem C5_ua_suffix_amended (t : String) (sig : TaskSignals)
    (h : sig.is_ua = true) :
    pyEndsWith (compute_base_category_name t sig) " UA" = true ∨
    pyContains (compute_base_category_name t sig) "UA" = true :=
  ua_suffix_step_spec sig _ h

/-- Witness for C5 (amended) at a concrete input. -/
theorem C5_witness :
    ({ is_ua := true } : TaskSignals).is_ua = true ∧
    (pyEndsWith (compute_base_category_name "Roof trim" { is_ua := true })
        " UA" = true ∨
     pyContains (compute_base_category_name "Roof trim" { is_ua := true })
        "UA" = true) :=
  ⟨rfl, C5_ua_suffix_amended "Roof trim" { is_ua := true } rfl⟩

/-! ## Claim C1 -/

/-- C1 counterexample: at the two-row scenario of the claim (same house,
`Touch Up A` for 100 and `Touch Up B` for 200, both mapping to `TOUCH UP`),
the final headers are exactly `TOUCH UP` with no `TOUCH UP (2)` variant, and
the single summary row carries the sum 300 in that one column: amounts are
accumulated with `+=` into one float per `(group, category)`, not into a
list with numbered duplicate columns. -/
theorem C1_counterexample :
    (aggregate_data c1_rows none).2.2 = ["TOUCH UP"] ∧
    "TOUCH UP (2)" ∉ (aggregate_data c1_rows none).2.2 ∧
    (aggregate_data c1_rows none).1.map (fun r => getNum r "TOUCH UP") = [300] := by
  refine ⟨rfl, by decide, ?_⟩
  rw [show (aggregate_data c1_rows none).1.map (fun r => getNum r "TOUCH UP")
      = [(0 : Rat) + 100 + 200] from rfl]
  norm_num

/-- C1 (amended): duplicate occurrences of the same category for one house
are summed into a single scalar under `(group_key, category)`, and the final
headers list each active category once; in the scenario the headers are
exactly `TOUCH UP` and the single summary row for house `(1, 2)` carries
`TOUCH UP = 300` and `total = 300`. -/
theorem C1_amended_duplicates_summed :
    (aggregate_data c1_rows none).2.2 = ["TOUCH UP"] ∧
    (aggregate_data c1_rows none).1.length = 1 ∧
    getStr ((aggregate_data c1_rows none).1.headD []) "lot_block" = "1" ∧
    getStr ((aggregate_data c1_rows none).1.headD []) "plan" = "2" ∧
    getNum ((aggregate_data c1_rows none).1.headD []) "TOUCH UP" = 300 ∧
    getNum ((aggregate_data c1_rows none).1.headD []) "total" = 300 := by
  refine ⟨rfl, rfl, rfl, rfl, ?_, ?_⟩
  · rw [show getNum ((aggregate_data c1_rows none).1.headD []) "TOUCH UP"
        = (0 : Rat) + 100 + 200 from rfl]
    norm_num
  · rw [show getNum ((aggregate_data c1_rows none).1.headD []) "total"
        = ((0 : Rat) + 100 + 200) + 0 from rfl]
    norm_num

/-! ## Extending the canonical map by one fresh entry -/

theorem lookup_singleton {α : Type} (c : String) (N : α) (k : String) :
    List.lookup k [(c, N)] = if k = c then some N else none := by
  by_cases h : k = c
  · subst h
    rw [if_pos rfl]
    exact lookup_cons_self [] k N
  · rw [if_neg h, lookup_cons_ne [] c k N h]
    rfl

theorem template_has_append_none (m : List (String × String)) (c N k : String)
    (h : template_has m k = none) :
    template_has (m ++ [(c, N)]) k = if k = c then some N else none := by
  unfold template_has at h ⊢
  rw [lookup_append_of_none _ _ _ h, lookup_singleton]

theorem template_has_append_some (m : List (String × String)) (c N k d : String)
    (h : template_has m k = some d) :
    template_has (m ++ [(c, N)]) k = some d := by
  unfold template_has at h ⊢
  exact lookup_append_of_some _ _ _ _ h

theorem ua_rule_ext (cond ua : Bool) (m : List (String × String))
    (c N kUA kB rUA rMiss rB : String) :
    extOk N (ua_rule cond ua m kUA kB rUA rMiss rB)
      (ua_rule cond ua (m ++ [(c, N)]) kUA kB rUA rMiss rB) := by
  by_cases hcond : cond = true
  · by_cases hua : ua = true
    · rcases h : template_has m kUA with _ | d
      · have h2 := template_has_append_none m c N kUA h
        by_cases hkc : kUA = c
        · right
          refine ⟨Or.inr ⟨rMiss, ?_⟩, rUA, ?_⟩
          · unfold ua_rule
            simp only [if_pos hcond, if_pos hua, h]
          · unfold ua_rule
            simp only [if_pos hcond, if_pos hua, h2, if_pos hkc]
        · left
          unfold ua_rule
          simp only [if_pos hcond, if_pos hua, h2, if_neg hkc, h]
      · left
        have h2 := template_has_append_some m c N kUA d h
        unfold ua_rule
        simp only [if_pos hcond, if_pos hua, h, h2]
    · rcases h : template_has m kB with _ | d
      · have h2 := template_has_append_none m c N kB h
        by_cases hkc : kB = c
        · right
          refine ⟨Or.inl ?_, rB, ?_⟩
          · unfold ua_rule
            simp only [if_pos hcond, if_neg hua, h]
          · unfold ua_rule
            simp only [if_pos hcond, if_neg hua, h2, if_pos hkc]
        · left
          unfold ua_rule
          simp only [if_pos hcond, if_neg hua, h2, if_neg hkc, h]
      · left
        have h2 := template_has_append_some m c N kB d h
        unfold ua_rule
        simp only [if_pos hcond, if_neg hua, h, h2]
  · left
    unfold ua_rule
    simp only [if_neg hcond]

theorem open_rule_ext (cond : Bool) (m : List (String × String))
    (c N key r : String) :
    extOk N (open_rule cond m key r) (open_rule cond (m ++ [(c, N)]) key r) := by
  by_cases hcond : cond = true
  · rcases h : template_has m key with _ | d
    · have h2 := template_has_append_none m c N key h
      by_cases hkc : key = c
      · right
        refine ⟨Or.inl ?_, r, ?_⟩
        · unfold open_rule
          simp only [if_pos hcond, h]
        · unfold open_rule
          simp only [if_pos hcond, h2, if_pos hkc]
      · left
        unfold open_rule
        simp only [if_pos hcond, h2, if_neg hkc, h]
    · left
      have h2 := template_has_append_some m c N key d h
      unfold open_rule
      simp only [if_pos hcond, h, h2]
  · left
    unfold open_rule
    simp only [if_neg hcond]

theorem strict_rule_ext (cond : Bool) (m : List (String × String))
    (c N key rOk rMiss : String) :
    extOk N (strict_rule cond m key rOk rMiss)
      (strict_rule cond (m ++ [(c, N)]) key rOk rMiss) := by
  by_cases hcond : cond = true
  · rcases h : template_has m key with _ | d
    · have h2 := template_has_append_none m c N key h
      by_cases hkc : key = c
      · right
        refine ⟨Or.inr ⟨rMiss, ?_⟩, rOk, ?_⟩
        · unfold strict_rule
          simp only [if_pos hcond, h]
        · unfold strict_rule
          simp only [if_pos hcond, h2, if_pos hkc]
      · left
        unfold strict_rule
        simp only [if_pos hcond, h2, if_neg hkc, h]
    · left
      have h2 := template_has_append_some m c N key d h
      unfold strict_rule
      simp only [if_pos hcond, h, h2]
  · left
    unfold strict_rule
    simp only [if_neg hcond]

theorem firstRule_ext (N : String) (l ln : List RuleOut)
    (hf : List.Forall₂ (extOk N) l ln) (hnone : (firstRule l).1 = none) :
    (firstRule ln).1 = none ∨ (firstRule ln).1 = some N := by
  induction hf with
  | nil => exact Or.inl rfl
  | @cons a b l₁ l₂ hab htail ih =>
    rcases hab with heq | ⟨_, r, hr⟩
    · subst heq
      cases b with
      | some out => exact Or.inl hnone
      | none => exact ih hnone
    · rw [hr]
      exact Or.inr rfl

theorem map_category_ext (t : String) (sig : TaskSignals)
    (m : List (String × String)) (c N : String)
    (h : (map_category t sig m).1 = none) :
    (map_category t sig (m ++ [(c, N)])).1 = none ∨
      (map_category t sig (m ++ [(c, N)])).1 = some N := by
  simp only [map_category] at h ⊢
  refine firstRule_ext N _ _ ?_ h
  refine List.Forall₂.cons ?_ (List.Forall₂.cons ?_ (List.Forall₂.cons ?_
    (List.Forall₂.cons ?_ (List.Forall₂.cons ?_ (List.Forall₂.cons ?_
    (List.Forall₂.cons ?_ (List.Forall₂.cons ?_ (List.Forall₂.cons ?_
    List.Forall₂.nil))))))))
  · unfold rule_baseshoe
    exact ua_rule_ext _ _ _ _ _ _ _ _ _ _
  · unfold rule_undercoat
    exact ua_rule_ext _ _ _ _ _ _ _ _ _ _
  · unfold rule_touchup
    exact ua_rule_ext _ _ _ _ _ _ _ _ _ _
  · unfold rule_rollwalls
    exact ua_rule_ext _ _ _ _ _ _ _ _ _ _
  · unfold rule_extprime
    exact ua_rule_ext _ _ _ _ _ _ _ _ _ _
  · unfold rule_exterior_ua
    exact open_rule_ext _ _ _ _ _ _
  · unfold rule_exterior
    exact open_rule_ext _ _ _ _ _ _
  · unfold rule_interior_ua
    exact strict_rule_ext _ _ _ _ _ _ _
  · unfold rule_interior
    exact open_rule_ext _ _ _ _ _ _

theorem createLoop_exit (base : String) (existing : List String) (n : Nat)
    (h : canonical base ∉ existing) :
    createLoop base existing (n + 1) 1 = base := by
  simp only [createLoop, if_pos rfl, if_true]
  rw [if_neg h]

theorem create_eq_base_of_fresh (t : String) (sig : TaskSignals)
    (existing : List String)
    (h : canonical (compute_base_category_name t sig) ∉ existing) :
    create_category_name t sig existing = compute_base_category_name t sig := by
  unfold create_category_name
  exact createLoop_exit _ _ _ h

/-- On a fresh mapper, a second `map_task` call with the same text returns
the same display name as the first. -/
theorem map_task_idem (tmpl : Option (List String)) (t : String) :
    (map_task (map_task (mkMapper tmpl) t).2 t).1.category_display
      = (map_task (mkMapper tmpl) t).1.category_display := by
  rcases hmc : map_category t (parse_signals t)
      (mkMapper tmpl).template_canon_to_display with ⟨od, r⟩
  cases od with
  | some d =>
    have hst : (map_task (mkMapper tmpl) t).2 = mkMapper tmpl := by
      simp only [map_task, hmc]
    rw [hst]
  | none =>
    cases hlk : List.lookup
        (canonical (compute_base_category_name t (parse_signals t)))
        (mkMapper tmpl).template_canon_to_display with
    | some d =>
      have hst : (map_task (mkMapper tmpl) t).2 = mkMapper tmpl := by
        simp only [map_task, hmc, hlk]
      rw [hst]
    | none =>
      have hnotmem : canonical (compute_base_category_name t (parse_signals t))
          ∉ keysOf (mkMapper tmpl).template_canon_to_display :=
        not_mem_of_lookup_eq_none _ _ hlk
      have hga : get_all_canonicals (mkMapper tmpl)
          = keysOf (mkMapper tmpl).template_canon_to_display := by
        unfold get_all_canonicals keysOf
        exact List.append_nil _
      have hcreate : create_category_name t (parse_signals t)
          (get_all_canonicals (mkMapper tmpl))
          = compute_base_category_name t (parse_signals t) := by
        rw [hga]
        exact create_eq_base_of_fresh t _ _ hnotmem
      have hst2 : (map_task (mkMapper tmpl) t).2.template_canon_to_display
          = (mkMapper tmpl).template_canon_to_display
            ++ [(canonical (compute_base_category_name t (parse_signals t)),
                 compute_base_category_name t (parse_signals t))] := by
        simp only [map_task, hmc, hlk, hcreate]
        exact dictInsert_of_not_mem _ _ _ hnotmem
      have hdisp : (map_task (mkMapper tmpl) t).1.category_display
          = compute_base_category_name t (parse_signals t) := by
        simp only [map_task, hmc, hlk, hcreate]
      rw [hdisp]
      generalize hG : (map_task (mkMapper tmpl) t).2 = S at hst2 ⊢
      have hextd := map_category_ext t (parse_signals t)
        (mkMapper tmpl).template_canon_to_display
        (canonical (compute_base_category_name t (parse_signals t)))
        (compute_base_category_name t (parse_signals t))
        (by rw [hmc])
      rw [← hst2] at hextd
      rcases hmc2 : map_category t (parse_signals t)
          S.template_canon_to_display with ⟨od2, r2⟩
      rw [hmc2] at hextd
      dsimp only at hextd
      rcases hextd with h2 | h2
      · subst h2
        have hlk2 : List.lookup
            (canonical (compute_base_category_name t (parse_signals t)))
            S.template_canon_to_display
            = some (compute_base_category_name t (parse_signals t)) := by
          rw [hst2, lookup_append_of_none _ _ _ hlk, lookup_singleton, if_pos rfl]
        simp only [map_task, hmc2, hlk2]
      · subst h2
        simp only [map_task, hmc2]

/-- After an auto-creating call, a second call whose `map_category` misses
and whose base name canonically collides with the created display reuses
that display with `is_new_category = false` and the reuse reason. -/
theorem map_task_guarded_reuse (st : MapperState) (tA tB : String)
    (h1 : (map_task st tA).1.is_new_category = true)
    (h2 : (map_category tB (parse_signals tB)
        (map_task st tA).2.template_canon_to_display).1 = none)
    (h3 : canonical (compute_base_category_name tB (parse_signals tB))
        = canonical ((map_task st tA).1.category_display)) :
    (map_task (map_task st tA).2 tB).1.category_display
        = (map_task st tA).1.category_display ∧
    (map_task (map_task st tA).2 tB).1.is_new_category = false ∧
    (map_task (map_task st tA).2 tB).1.reason = "reused_created_category" := by
  rcases map_task_cases st tA with ⟨_, hnew, _⟩ | ⟨_, _, _, hm, _⟩
  · rw [hnew] at h1
    exact Bool.noConfusion h1
  · generalize hG : (map_task st tA).2 = S at h2 hm ⊢
    rcases hmc2 : map_category tB (parse_signals tB)
        S.template_canon_to_display with ⟨od2, r2⟩
    rw [hmc2] at h2
    dsimp only at h2
    subst h2
    have hlk2 : List.lookup
        (canonical (compute_base_category_name tB (parse_signals tB)))
        S.template_canon_to_display
        = some ((map_task st tA).1.category_display) := by
      rw [h3, hm]
      exact lookup_dictInsert_self _ _ _
    refine ⟨?_, ?_, ?_⟩ <;> simp only [map_task, hmc2, hlk2]

/-! ## Claim C6 -/

/-- C6 counterexample: the reuse clause of the claim fails as stated. With
the default template, `"Spray overhang stuff"` auto-creates the category
`SPRAY OVERHANG STUFF`; the different text `"spray overhang stuff [PUNCH]"`
synthesizes a base name with the same canonical form, yet the second call
returns the template match `TOUCH UP` (its punch-list keyword fires rule 3
before created-category reuse is ever consulted), so the created display is
not reused and the reason is not `reused_created_category`. -/
theorem C6_counterexample :
    c6_callA.1.is_new_category = true ∧
    canonical (compute_base_category_name c6_taskB (parse_signals c6_taskB))
      = canonical c6_callA.1.category_display ∧
    c6_taskA ≠ c6_taskB ∧
    c6_callB.1.category_display ≠ c6_callA.1.category_display ∧
    c6_callB.1.reason ≠ "reused_created_category" := by decide

/-- C6 (amended): on a fresh mapper, a second `map_task` call with the same
text always returns the same display as the first; and after a call that
auto-created a category, a call with a text for which no template rule of
`map_category` matches and whose synthesized base name canonicalizes to the
created display's canonical form reuses that exact display, with
`is_new_category = false` and reason `reused_created_category`. -/
theorem C6_idempotent_and_guarded_reuse
    (tmpl : Option (List String)) (st : MapperState) (tA tB t : String)
    (h1 : (map_task st tA).1.is_new_category = true)
    (h2 : (map_category tB (parse_signals tB)
        (map_task st tA).2.template_canon_to_display).1 = none)
    (h3 : canonical (compute_base_category_name tB (parse_signals tB))
        = canonical ((map_task st tA).1.category_display)) :
    ((map_task (map_task (mkMapper tmpl) t).2 t).1.category_display
        = (map_task (mkMapper tmpl) t).1.category_display) ∧
    ((map_task (map_task st tA).2 tB).1.category_display
        = (map_task st tA).1.category_display ∧
     (map_task (map_task st tA).2 tB).1.is_new_category = false ∧
     (map_task (map_task st tA).2 tB).1.reason = "reused_created_category") :=
  ⟨map_task_idem tmpl t, map_task_guarded_reuse st tA tB h1 h2 h3⟩

/-- Witness for C6: `"Painting - Rolling Roof (EXT) [LS]"` auto-creates
`EXT ROLLING ROOF`; repeating it reuses the display, and the variant with a
different bracket code reuses it with the reuse reason. -/
theorem C6_witness :
    ((map_task (mkMapper none) c6_wtA).1.is_new_category = true ∧
     (map_category c6_wtB (parse_signals c6_wtB)
        (map_task (mkMapper none) c6_wtA).2.template_canon_to_display).1 = none ∧
     canonical (compute_base_category_name c6_wtB (parse_signals c6_wtB))
        = canonical ((map_task (mkMapper none) c6_wtA).1.category_display)) ∧
    (map_task (map_task (mkMapper none) c6_wtA).2 c6_wtA).1.category_display
        = (map_task (mkMapper none) c6_wtA).1.category_display ∧
    (map_task (map_task (mkMapper none) c6_wtA).2 c6_wtB).1.category_display
        = (map_task (mkMapper none) c6_wtA).1.category_display ∧
    (map_task (map_task (mkMapper none) c6_wtA).2 c6_wtB).1.is_new_category
        = false ∧
    (map_task (map_task (mkMapper none) c6_wtA).2 c6_wtB).1.reason
        = "reused_created_category" := by
  have h := C6_idempotent_and_guarded_reuse none (mkMapper none) c6_wtA c6_wtB
    c6_wtA (by decide) (by decide) (by decide)
  exact ⟨⟨by decide, by decide, by decide⟩, h.1, h.2.1, h.2.2.1, h.2.2.2⟩

/-! ## Distinct counters render distinct canonical names -/

theorem dropWhile_append_cons (p : Char → Bool) (ys zs : List Char)
    (z0 : Char) (h : p z0 = false) :
    List.dropWhile p (ys ++ z0 :: zs) = List.dropWhile p ys ++ z0 :: zs := by
  induction ys with
  | nil => simp [List.dropWhile_cons, h]
  | cons c ys ih =>
    by_cases hc : p c = true
    · simp [List.dropWhile_cons, hc, ih]
    · simp [List.dropWhile_cons, hc]

theorem dropTrail_append_last (p : Char → Bool) (l : List Char) (z : Char)
    (h : p z = false) :
    dropTrail p (l ++ [z]) = l ++ [z] := by
  unfold dropTrail
  rw [List.reverse_append]
  simp [List.dropWhile_cons, h]

theorem collapseWS_fix_of_nonspace :
    ∀ zs : List Char, (∀ c ∈ zs, isPySpace c = false) → collapseWS zs = zs := by
  intro zs
  induction zs with
  | nil => intro _; rfl
  | cons c rest ih =>
    intro h
    have hc := h c (List.mem_cons_self c rest)
    cases rest with
    | nil => simp [collapseWS, hc]
    | cons d rest2 =>
      have ih2 := ih (fun x hx => h x (List.mem_cons_of_mem c hx))
      simp [collapseWS, hc, ih2]

theorem collapseWS_append_nonspace :
    ∀ (ys : List Char) (z0 : Char) (zs : List Char),
      isPySpace z0 = false → (∀ c ∈ zs, isPySpace c = false) →
      collapseWS (ys ++ z0 :: zs) = collapseWS ys ++ z0 :: zs := by
  intro ys
  induction ys with
  | nil =>
    intro z0 zs h0 hz
    rw [List.nil_append]
    show collapseWS (z0 :: zs) = [] ++ z0 :: zs
    rw [List.nil_append]
    refine collapseWS_fix_of_nonspace (z0 :: zs) ?_
    intro c hc
    rcases List.mem_cons.mp hc with rfl | hc2
    · exact h0
    · exact hz c hc2
  | cons c ys ih =>
    intro z0 zs h0 hz
    cases ys with
    | nil =>
      have hfix : collapseWS (z0 :: zs) = z0 :: zs := by
        refine collapseWS_fix_of_nonspace (z0 :: zs) ?_
        intro x hx
        rcases List.mem_cons.mp hx with rfl | hx2
        · exact h0
        · exact hz x hx2
      by_cases hc : isPySpace c = true
      · simp [collapseWS, hc, h0, hfix]
      · simp [collapseWS, hc, hfix]
    | cons d ys2 =>
      have ihx := ih z0 zs h0 hz
      rw [List.cons_append] at ihx
      by_cases hc : isPySpace c = true
      · by_cases hd : isPySpace d = true
        · show collapseWS (c :: d :: (ys2 ++ z0 :: zs))
            = collapseWS (c :: d :: ys2) ++ z0 :: zs
          rw [show collapseWS (c :: d :: (ys2 ++ z0 :: zs))
              = collapseWS (d :: (ys2 ++ z0 :: zs)) from by
            simp [collapseWS, hc, hd]]
          rw [show collapseWS (c :: d :: ys2)
              = collapseWS (d :: ys2) from by simp [collapseWS, hc, hd]]
          exact ihx
        · show collapseWS (c :: d :: (ys2 ++ z0 :: zs))
            = collapseWS (c :: d :: ys2) ++ z0 :: zs
          rw [show collapseWS (c :: d :: (ys2 ++ z0 :: zs))
              = ' ' :: collapseWS (d :: (ys2 ++ z0 :: zs)) from by
            simp [collapseWS, hc, hd]]
          rw [show collapseWS (c :: d :: ys2)
              = ' ' :: collapseWS (d :: ys2) from by simp [collapseWS, hc, hd]]
          rw [ihx]
          rfl
      · show collapseWS (c :: d :: (ys2 ++ z0 :: zs))
          = collapseWS (c :: d :: ys2) ++ z0 :: zs
        rw [show collapseWS (c :: d :: (ys2 ++ z0 :: zs))
            = c :: collapseWS (d :: (ys2 ++ z0 :: zs)) from by
          simp [collapseWS, hc]]
        rw [show collapseWS (c :: d :: ys2)
            = c :: collapseWS (d :: ys2) from by simp [collapseWS, hc]]
        rw [ihx]
        rfl

theorem digit_char_facts (k : Nat) (hk : k < 10) :
    isPyWord (Char.ofNat (48 + k)) = true ∧
    isPySpace (Char.ofNat (48 + k)) = false ∧
    Char.toUpper (Char.ofNat (48 + k)) = Char.ofNat (48 + k) := by
  interval_cases k <;> exact ⟨by decide, by decide, by decide⟩

theorem natRevDigits_digits (n : Nat) :
    ∀ c ∈ natRevDigits n, ∃ k, k < 10 ∧ c = Char.ofNat (48 + k) := by
  induction n using Nat.strong_induction_on with
  | _ n ih =>
    match n with
    | 0 => intro c hc; simp [natRevDigits] at hc
    | m + 1 =>
      intro c hc
      rw [natRevDigits] at hc
      rcases List.mem_cons.mp hc with rfl | h
      · exact ⟨(m + 1) % 10, Nat.mod_lt _ (by decide), rfl⟩
      · exact ih ((m + 1) / 10) (Nat.div_lt_self (Nat.succ_pos m) (by decide)) c h

theorem revVal_natRevDigits (n : Nat) : revVal (natRevDigits n) = n := by
  induction n using Nat.strong_induction_on with
  | _ n ih =>
    match n with
    | 0 => simp [natRevDigits, revVal]
    | m + 1 =>
      rw [natRevDigits]
      rw [show revVal (Char.ofNat (48 + (m + 1) % 10)
            :: natRevDigits ((m + 1) / 10))
          = ((Char.ofNat (48 + (m + 1) % 10)).toNat - 48)
            + 10 * revVal (natRevDigits ((m + 1) / 10)) from rfl]
      rw [ih ((m + 1) / 10) (Nat.div_lt_self (Nat.succ_pos m) (by decide))]
      have hch : (Char.ofNat (48 + (m + 1) % 10)).toNat = 48 + (m + 1) % 10 := by
        have hlt : (m + 1) % 10 < 10 := Nat.mod_lt _ (by decide)
        have hbound : ∀ k, k < 10 → (Char.ofNat (48 + k)).toNat = 48 + k := by
          decide
        exact hbound _ hlt
      rw [hch]
      omega

theorem natRevDigits_inj (a b : Nat) (h : natRevDigits a = natRevDigits b) :
    a = b := by
  have h1 := revVal_natRevDigits a
  rw [h, revVal_natRevDigits b] at h1
  exact h1.symm

/-- Pushing a nonempty all-word, all-nonspace block through the cleaning
chain of `canonical`: the block survives intact at the right end and the
rest depends only on the left part. -/
theorem strip_chain_append_block (xs D : List Char) (hne : D ≠ [])
    (hall : ∀ c ∈ D, isPyWord c = true ∧ isPySpace c = false) :
    collapseWS (dropTrail (fun c => !isPyWord c)
      ((stripL (xs ++ [' '] ++ D)).dropWhile (fun c => !isPyWord c)))
    = collapseWS (List.dropWhile (fun c => !isPyWord c)
        (List.dropWhile isPySpace (xs ++ [' ']))) ++ D := by
  obtain ⟨z0, zs, hz⟩ := List.exists_cons_of_ne_nil hne
  rcases List.eq_nil_or_concat D with hcon | ⟨R, c0, hr⟩
  · exact absurd hcon hne
  rw [List.concat_eq_append] at hr
  have hz0w : isPyWord z0 = true := (hall z0 (hz ▸ List.mem_cons_self z0 zs)).1
  have hz0s : isPySpace z0 = false := (hall z0 (hz ▸ List.mem_cons_self z0 zs)).2
  have hc0mem : c0 ∈ D := by
    rw [hr]
    exact List.mem_append_right R (List.mem_singleton_self c0)
  have hc0w : (fun c => !isPyWord c) c0 = false := by
    simp [(hall c0 hc0mem).1]
  have hc0s : isPySpace c0 = false := (hall c0 hc0mem).2
  have h1 : stripL (xs ++ [' '] ++ D)
      = List.dropWhile isPySpace (xs ++ [' ']) ++ D := by
    unfold stripL
    conv_lhs => rw [hz]
    rw [dropWhile_append_cons isPySpace (xs ++ [' ']) zs z0 hz0s]
    rw [← hz, hr, ← List.append_assoc]
    rw [dropTrail_append_last isPySpace _ c0 hc0s]
  rw [h1]
  have h2 : List.dropWhile (fun c => !isPyWord c)
      (List.dropWhile isPySpace (xs ++ [' ']) ++ D)
      = List.dropWhile (fun c => !isPyWord c)
          (List.dropWhile isPySpace (xs ++ [' '])) ++ D := by
    conv_lhs => rw [hz]
    rw [dropWhile_append_cons (fun c => !isPyWord c) _ zs z0 (by simp [hz0w])]
    rw [← hz]
  rw [h2]
  have h3 : dropTrail (fun c => !isPyWord c)
      (List.dropWhile (fun c => !isPyWord c)
        (List.dropWhile isPySpace (xs ++ [' '])) ++ D)
      = List.dropWhile (fun c => !isPyWord c)
          (List.dropWhile isPySpace (xs ++ [' '])) ++ D := by
    rw [hr, ← List.append_assoc]
    rw [dropTrail_append_last (fun c => !isPyWord c) _ c0 hc0w]
  rw [h3]
  conv_lhs => rw [hz]
  rw [collapseWS_append_nonspace _ z0 zs hz0s
    (fun c hc => (hall c (hz ▸ List.mem_cons_of_mem z0 hc)).2)]
  rw [← hz]

/-- `canonical (base ++ " " ++ str (m + 1))` splits into a counter-free
prefix and the decimal digits of the counter. -/
theorem canonical_append_num (base : String) (m : Nat) :
    canonical (base ++ " " ++ natStr (m + 1))
      = String.mk (numPrefix base ++ (natRevDigits (m + 1)).reverse) := by
  have hne0 : (natRevDigits (m + 1)).reverse ≠ [] := by
    rw [natRevDigits]
    simp
  have hall : ∀ c ∈ (natRevDigits (m + 1)).reverse,
      isPyWord c = true ∧ isPySpace c = false ∧ Char.toUpper c = c := by
    intro c hc
    obtain ⟨k, hk, rfl⟩ := natRevDigits_digits (m + 1) c (List.mem_reverse.mp hc)
    exact digit_char_facts k hk
  have hns : natStr (m + 1) = String.mk (natRevDigits (m + 1)).reverse := by
    unfold natStr
    rw [if_neg (Nat.succ_ne_zero m)]
  have hdata : (base ++ " " ++ natStr (m + 1)).data
      = base.data ++ [' '] ++ (natRevDigits (m + 1)).reverse := by
    rw [hns]
    rfl
  have hne : base ++ " " ++ natStr (m + 1) ≠ "" := by
    intro h
    have h2 := congrArg String.data h
    rw [hdata] at h2
    simp at h2
  unfold canonical
  rw [if_neg hne, hdata]
  rw [List.map_append, List.map_append]
  have hsp : List.map Char.toUpper [' '] = [' '] := by decide
  have hDm : List.map Char.toUpper (natRevDigits (m + 1)).reverse
      = (natRevDigits (m + 1)).reverse := by
    rw [List.map_congr_left (fun c hc => (hall c hc).2.2)]
    exact List.map_id _
  rw [hsp, hDm]
  unfold numPrefix
  exact congrArg String.mk (strip_chain_append_block (base.data.map Char.toUpper)
    (natRevDigits (m + 1)).reverse hne0
    (fun c hc => ⟨(hall c hc).1, (hall c hc).2.1⟩))

theorem numbered_canonical_inj (base : String) (a b : Nat)
    (h : canonical (base ++ " " ++ natStr (a + 2))
      = canonical (base ++ " " ++ natStr (b + 2))) :
    a = b := by
  rw [show a + 2 = (a + 1) + 1 from rfl] at h
  rw [show b + 2 = (b + 1) + 1 from rfl] at h
  rw [canonical_append_num base (a + 1), canonical_append_num base (b + 1)] at h
  have h2 : numPrefix base ++ (natRevDigits (a + 1 + 1)).reverse
      = numPrefix base ++ (natRevDigits (b + 1 + 1)).reverse :=
    congrArg String.data h
  have h3 := List.append_cancel_left h2
  have h4 := List.reverse_injective h3
  have h5 := natRevDigits_inj _ _ h4
  omega

theorem exists_not_mem_of_nodup_longer (l ex : List String) (hnd : l.Nodup)
    (hlen : ex.length < l.length) : ∃ x ∈ l, x ∉ ex := by
  by_contra hallin
  push_neg at hallin
  have hsub : l.toFinset ⊆ ex.toFinset := by
    intro x hx
    rw [List.mem_toFinset] at hx ⊢
    exact hallin x hx
  have h1 : l.toFinset.card = l.length := List.toFinset_card_of_nodup hnd
  have h2 := Finset.card_le_card hsub
  have h3 := ex.toFinset_card_le
  omega

/-- Among the counters tried with fuel `existing.length + 2`, one produces a
canonical form outside `existing`. -/
theorem exists_fresh_candidate (base : String) (existing : List String) :
    ∃ i, i < existing.length + 2 ∧
      canonical (if 1 + i = 1 then base else base ++ " " ++ natStr (1 + i))
        ∉ existing := by
  have hnd : ((List.range (existing.length + 1)).map
      (fun i => canonical (base ++ " " ++ natStr (i + 2)))).Nodup := by
    refine List.Nodup.map_on ?_ (List.nodup_range _)
    intro a _ b _ hab
    exact numbered_canonical_inj base a b hab
  have hlen : existing.length < ((List.range (existing.length + 1)).map
      (fun i => canonical (base ++ " " ++ natStr (i + 2)))).length := by
    simp
  obtain ⟨x, hx, hnotin⟩ :=
    exists_not_mem_of_nodup_longer _ existing hnd hlen
  obtain ⟨i, hi, rfl⟩ := List.mem_map.mp hx
  rw [List.mem_range] at hi
  refine ⟨i + 1, by omega, ?_⟩
  rw [if_neg (by omega)]
  rw [show 1 + (i + 1) = i + 2 from by omega]
  exact hnotin

theorem createLoop_mem_spec (base : String) (existing : List String) :
    ∀ fuel counter,
      (∃ i, i < fuel ∧
        canonical (if counter + i = 1 then base
          else base ++ " " ++ natStr (counter + i)) ∉ existing) →
      canonical (createLoop base existing fuel counter) ∉ existing := by
  intro fuel
  induction fuel with
  | zero =>
    intro counter h
    obtain ⟨i, hi, _⟩ := h
    exact absurd hi (Nat.not_lt_zero i)
  | succ fuel ih =>
    intro counter h
    obtain ⟨i, hi, hfresh⟩ := h
    simp only [createLoop]
    by_cases hmem : canonical (if counter = 1 then base
        else base ++ " " ++ natStr counter) ∈ existing
    · rw [if_pos hmem]
      apply ih
      cases i with
      | zero =>
        rw [Nat.add_zero] at hfresh
        exact absurd hmem hfresh
      | succ j =>
        refine ⟨j, by omega, ?_⟩
        rw [show counter + 1 + j = counter + (j + 1) from by omega]
        exact hfresh
    · rw [if_neg hmem]
      exact hmem

/-- The uniqueness loop of `create_category_name` always succeeds within its
fuel: the returned name's canonical form is outside `existing`. -/
theorem create_category_name_fresh (t : String) (sig : TaskSignals)
    (existing : List String) :
    canonical (create_category_name t sig existing) ∉ existing := by
  unfold create_category_name
  apply createLoop_mem_spec
  exact exists_fresh_candidate (compute_base_category_name t sig) existing

/-! ## The canonical-uniqueness invariant -/

theorem mem_keys_dictInsert_of_mem {α : Type} (m : List (String × α))
    (k : String) (v : α) (k₀ : String) (h : k₀ ∈ keysOf m) :
    k₀ ∈ keysOf (dictInsert m k v) := by
  by_cases hk : k ∈ keysOf m
  · rwa [keysOf_dictInsert_mem m k v hk]
  · rw [keysOf_dictInsert_not_mem m k v hk]
    exact List.mem_append_left _ h

theorem mem_keys_dictInsert_self {α : Type} (m : List (String × α))
    (k : String) (v : α) : k ∈ keysOf (dictInsert m k v) := by
  by_cases hk : k ∈ keysOf m
  · rwa [keysOf_dictInsert_mem m k v hk]
  · rw [keysOf_dictInsert_not_mem m k v hk]
    exact List.mem_append_right _ (List.mem_singleton_self k)

theorem canonFold_keys_mono (headers : List String) :
    ∀ (acc : List (String × String)) (k : String), k ∈ keysOf acc →
      k ∈ keysOf (headers.foldl (fun m h => dictInsert m (canonical h) h) acc) := by
  induction headers with
  | nil => intro acc k hk; exact hk
  | cons hd rest ih =>
    intro acc k hk
    rw [List.foldl_cons]
    exact ih _ _ (mem_keys_dictInsert_of_mem _ _ _ _ hk)

theorem canonFold_mem (headers : List String) :
    ∀ (acc : List (String × String)) (h : String), h ∈ headers →
      canonical h ∈ keysOf
        (headers.foldl (fun m x => dictInsert m (canonical x) x) acc) := by
  induction headers with
  | nil => intro acc h hh; exact absurd hh (List.not_mem_nil h)
  | cons hd rest ih =>
    intro acc h hh
    rw [List.foldl_cons]
    rcases List.mem_cons.mp hh with rfl | hmem
    · exact canonFold_keys_mono rest _ _ (mem_keys_dictInsert_self _ _ _)
    · exact ih _ _ hmem

theorem canonFold_nodup (headers : List String) :
    ∀ acc : List (String × String), (keysOf acc).Nodup →
      (keysOf (headers.foldl (fun m x => dictInsert m (canonical x) x) acc)).Nodup := by
  induction headers with
  | nil => intro acc h; exact h
  | cons hd rest ih =>
    intro acc h
    rw [List.foldl_cons]
    exact ih _ (nodup_keys_dictInsert _ _ _ h)

/-- Construction establishes the invariant whenever the effective header
list is canonically duplicate-free. -/
theorem mkMapper_canonInv (tmpl : Option (List String))
    (hd : ((mkMapper tmpl).category_headers.map canonical).Nodup) :
    CanonInv (mkMapper tmpl) := by
  have htc : (mkMapper tmpl).template_canon_to_display
      = (mkMapper tmpl).category_headers.foldl
          (fun m h => dictInsert m (canonical h) h) [] := rfl
  refine ⟨hd, ?_, ?_⟩
  · rw [htc]
    exact canonFold_nodup _ _ (by simp [keysOf])
  · intro h hh
    rw [htc]
    exact canonFold_mem _ _ _ hh

/-- `map_task` preserves the invariant: the auto-created name's canonical
form is provably fresh. -/
theorem map_task_canonInv (st : MapperState) (t : String) (hinv : CanonInv st) :
    CanonInv (map_task st t).2 := by
  rcases map_task_cases st t with ⟨hst, _, _⟩ | ⟨_, hdisp, hh, hm, _⟩
  · rw [hst]
    exact hinv
  · obtain ⟨h1, h2, h3⟩ := hinv
    have hfresh0 : canonical (map_task st t).1.category_display
        ∉ get_all_canonicals st := by
      rw [hdisp]
      exact create_category_name_fresh t (parse_signals t) _
    have hfreshk : canonical (map_task st t).1.category_display
        ∉ keysOf st.template_canon_to_display := by
      intro hk
      exact hfresh0 (List.mem_append_left _ hk)
    refine ⟨?_, ?_, ?_⟩
    · rw [hh, List.map_append]
      rw [List.nodup_append]
      refine ⟨h1, List.nodup_singleton _, ?_⟩
      intro a ha hb
      simp only [List.map_cons, List.map_nil, List.mem_singleton] at hb
      subst hb
      obtain ⟨h0, hmem, heq⟩ := List.mem_map.mp ha
      rw [← heq] at hfreshk
      exact hfreshk (h3 h0 hmem)
    · rw [hm, dictInsert_of_not_mem _ _ _ hfreshk, keysOf_append]
      rw [List.nodup_append]
      refine ⟨h2, List.nodup_singleton _, ?_⟩
      intro a ha hb
      simp only [keysOf, List.map_cons, List.map_nil, List.mem_singleton] at hb
      subst hb
      exact hfreshk ha
    · intro h0 hh0
      rw [hh] at hh0
      rw [hm, dictInsert_of_not_mem _ _ _ hfreshk, keysOf_append]
      rcases List.mem_append.mp hh0 with hold | hnew
      · exact List.mem_append_left _ (h3 h0 hold)
      · rw [List.mem_singleton] at hnew
        subst hnew
        apply List.mem_append_right
        simp [keysOf]

theorem foldl_canonInv (ts : List String) :
    ∀ st : MapperState, CanonInv st →
      CanonInv (ts.foldl (fun st t => (map_task st t).2) st) := by
  induction ts with
  | nil => intro st h; exact h
  | cons t rest ih =>
    intro st h
    rw [List.foldl_cons]
    exact ih _ (map_task_canonInv st t h)

/-! ## Claim C4 -/

/-- C4 counterexample: the invariant does not hold for every template.
`__init__` never deduplicates the given headers, so the template
`["TOUCH UP", "Touch Up"]` yields two `category_headers` entries with the
same canonical form. -/
theorem C4_counterexample :
    canonical "TOUCH UP" = canonical "Touch Up" ∧
    (mkMapper (some c4_bad_template)).category_headers
      = ["TOUCH UP", "Touch Up"] ∧
    ¬ ((mkMapper (some c4_bad_template)).category_headers.map canonical).Nodup := by
  refine ⟨by decide, rfl, ?_⟩
  intro h
  rw [show (mkMapper (some c4_bad_template)).category_headers.map canonical
      = ["TOUCH UP", "TOUCH UP"] from by decide] at h
  simp [List.nodup_cons] at h

/-- C4 (amended): when the effective template headers are canonically
duplicate-free, the canonical-uniqueness invariant holds after construction
and is preserved by every sequence of `map_task` calls: header canonicals
stay pairwise distinct, the canonical-map keys stay unique, and every
header's canonical form is a key of the map. -/
theorem C4_canonical_uniqueness_amended (tmpl : Option (List String))
    (ts : List String)
    (hd : ((mkMapper tmpl).category_headers.map canonical).Nodup) :
    CanonInv (mkMapper tmpl) ∧
    CanonInv (ts.foldl (fun st t => (map_task st t).2) (mkMapper tmpl)) :=
  ⟨mkMapper_canonInv tmpl hd,
   foldl_canonInv ts (mkMapper tmpl) (mkMapper_canonInv tmpl hd)⟩

/-- Witness for C4: the default template is canonically duplicate-free, and
the invariant survives a task that auto-creates a category. -/
theorem C4_witness :
    (((mkMapper none).category_headers.map canonical).Nodup) ∧
    CanonInv (mkMapper none) ∧
    CanonInv (["Painting - Rolling Roof (EXT) [LS]"].foldl
      (fun st t => (map_task st t).2) (mkMapper none)) :=
  ⟨by decide,
   (C4_canonical_uniqueness_amended none
      ["Painting - Rolling Roof (EXT) [LS]"] (by decide)).1,
   (C4_canonical_uniqueness_amended none
      ["Painting - Rolling Roof (EXT) [LS]"] (by decide)).2⟩

/-! ## Cell-level lemmas for the aggregation accumulator -/

theorem bumpCount_pos (m : List (String × Nat)) (k cat : String)
    (h : 0 < (List.lookup cat m).getD 0) :
    0 < (List.lookup cat (bumpCount m k)).getD 0 := by
  by_cases hck : cat = k
  · subst hck
    unfold bumpCount
    rw [lookup_dictInsert_self]
    simp
  · unfold bumpCount
    rw [lookup_dictInsert_ne _ _ _ _ hck]
    exact h

theorem bumpCount_self_pos (m : List (String × Nat)) (k : String) :
    0 < (List.lookup k (bumpCount m k)).getD 0 := by
  unfold bumpCount
  rw [lookup_dictInsert_self]
  simp

theorem lookup_map_modify_ne (gk gk' : String × String)
    (f : List (String × Rat) → List (String × Rat)) (h : gk' ≠ gk) :
    ∀ d : List ((String × String) × List (String × Rat)),
      List.lookup gk' (d.map (fun p => if p.1 = gk then (p.1, f p.2) else p))
        = List.lookup gk' d := by
  intro d
  induction d with
  | nil => rfl
  | cons p rest ih =>
    obtain ⟨k0, v0⟩ := p
    rw [List.map_cons]
    by_cases hp : (k0, v0).1 = gk
    · rw [if_pos hp]
      have hne : gk' ≠ k0 := by
        intro hc
        exact h (by rw [hc]; exact hp)
      rw [lookup_cons_ne _ _ _ _ hne, lookup_cons_ne _ _ _ _ hne]
      exact ih
    · rw [if_neg hp]
      by_cases hk : gk' = k0
      · subst hk
        rw [lookup_cons_self, lookup_cons_self]
      · rw [lookup_cons_ne _ _ _ _ hk, lookup_cons_ne _ _ _ _ hk]
        exact ih

theorem exists_split_of_mem_keys2 {κ α : Type} [DecidableEq κ] [BEq κ]
    [LawfulBEq κ] (m : List (κ × α)) (k : κ) (h : k ∈ keysOf m) :
    ∃ v0 l1 l2, m = l1 ++ (k, v0) :: l2 ∧ k ∉ keysOf l1 := by
  induction m with
  | nil => simp [keysOf] at h
  | cons p rest ih =>
    obtain ⟨k0, v0⟩ := p
    by_cases hk : k = k0
    · subst hk
      exact ⟨v0, [], rest, rfl, by simp [keysOf]⟩
    · have h2 : k ∈ keysOf rest := by
        rcases List.mem_cons.mp h with hc | hc
        · exact absurd hc hk
        · exact hc
      obtain ⟨v1, l1, l2, hm, hl1⟩ := ih h2
      refine ⟨v1, (k0, v0) :: l1, l2, by rw [hm]; rfl, ?_⟩
      intro hc
      rcases List.mem_cons.mp hc with hc2 | hc2
      · exact hk hc2
      · exact hl1 hc2

theorem lookup_outerBump_self (d : List ((String × String) × List (String × Rat)))
    (gk : String × String) (cat : String) (amt : Rat) :
    List.lookup gk (outerBump d gk cat amt)
      = some (innerBump ((List.lookup gk d).getD []) cat amt) := by
  unfold outerBump
  by_cases h : gk ∈ keysOf d
  · rw [if_pos (show gk ∈ List.map (fun p => p.1) d from h)]
    obtain ⟨v0, l1, l2, rfl, hl1⟩ := exists_split_of_mem_keys2 d gk h
    rw [List.map_append, List.map_cons]
    have hmap : l1.map (fun p => if p.1 = gk then (p.1, innerBump p.2 cat amt) else p)
        = l1 := by
      have hfix : ∀ p ∈ l1,
          (if p.1 = gk then (p.1, innerBump p.2 cat amt) else p) = id p :=
        fun p hp => if_neg (fun hc => hl1 (by
          rw [← hc]
          exact List.mem_map_of_mem (fun q => q.1) hp))
      rw [List.map_congr_left hfix, List.map_id]
    rw [hmap, if_pos (show (gk, v0).1 = gk from rfl)]
    rw [lookup_append_of_none _ _ _ (lookup_eq_none_of_not_mem _ _ hl1),
      lookup_cons_self]
    rw [lookup_append_of_none _ _ _ (lookup_eq_none_of_not_mem _ _ hl1),
      lookup_cons_self]
    rfl
  · rw [if_neg (show ¬gk ∈ List.map (fun p => p.1) d from h)]
    rw [lookup_append_of_none _ _ _ (lookup_eq_none_of_not_mem _ _ h),
      lookup_cons_self]
    rw [lookup_eq_none_of_not_mem _ _ h]
    rfl

theorem lookup_outerBump_ne (d : List ((String × String) × List (String × Rat)))
    (gk gk' : String × String) (cat : String) (amt : Rat) (h : gk' ≠ gk) :
    List.lookup gk' (outerBump d gk cat amt) = List.lookup gk' d := by
  unfold outerBump
  by_cases hm : gk ∈ keysOf d
  · rw [if_pos (show gk ∈ List.map (fun p => p.1) d from hm)]
    exact lookup_map_modify_ne gk gk' (fun x => innerBump x cat amt) h d
  · rw [if_neg (show ¬gk ∈ List.map (fun p => p.1) d from hm)]
    rcases hl : List.lookup gk' d with _ | v
    · rw [lookup_append_of_none _ _ _ hl, lookup_cons_ne [] gk gk' _ h]
      rfl
    · rw [lookup_append_of_some _ _ _ _ hl]

theorem cellOf_outerBump_self (d : List ((String × String) × List (String × Rat)))
    (gk : String × String) (cat : String) (amt : Rat) :
    cellOf (outerBump d gk cat amt) gk cat = cellOf d gk cat + amt := by
  unfold cellOf
  rw [lookup_outerBump_self]
  show (List.lookup cat (innerBump ((List.lookup gk d).getD []) cat amt)).getD 0 = _
  unfold innerBump
  rw [lookup_dictInsert_self]
  rfl

theorem cellOf_outerBump_ne (d : List ((String × String) × List (String × Rat)))
    (gk : String × String) (cat : String) (amt : Rat) (gk' : String × String)
    (cat' : String) (h : ¬(gk' = gk ∧ cat' = cat)) :
    cellOf (outerBump d gk cat amt) gk' cat' = cellOf d gk' cat' := by
  by_cases hg : gk' = gk
  · subst hg
    have hc : cat' ≠ cat := fun hcc => h ⟨rfl, hcc⟩
    unfold cellOf
    rw [lookup_outerBump_self]
    show (List.lookup cat' (innerBump ((List.lookup gk' d).getD []) cat amt)).getD 0 = _
    unfold innerBump
    rw [lookup_dictInsert_ne _ _ _ _ hc]
  · unfold cellOf
    rw [lookup_outerBump_ne _ _ _ _ _ hg]

/-- The headers of the mapper after a non-skipped step are those after the
`map_task` call (`add_example_to_created_category` never touches them). -/
theorem agg_step_headers_eq (st : AggState) (row : ParsedRow)
    (h : ¬effective_task row = "") :
    (agg_step st row).mapper.category_headers
      = (map_task st.mapper (effective_task row)).2.category_headers := by
  rw [agg_step_mapper st row h]
  split
  · exact add_example_headers _ _ _
  · rfl

theorem agg_step_cellInv (st : AggState) (row : ParsedRow)
    (hv : ValuesInHeaders st.mapper) (hinv : AggCellInv st) :
    AggCellInv (agg_step st row) := by
  by_cases h : effective_task row = ""
  · intro p hp
    simp only [agg_step, if_pos h] at hp ⊢
    obtain ⟨hnd, hcat⟩ := hinv p hp
    refine ⟨hnd, ?_⟩
    intro cat hc
    obtain ⟨hmem, hpos⟩ := hcat cat hc
    exact ⟨hmem, bumpCount_pos _ _ _ hpos⟩
  · intro p hp
    rw [agg_step_aggData st row h] at hp
    have hheq := agg_step_headers_eq st row h
    have hcnt := agg_step_counts st row h
    rcases mem_outerBump _ _ _ _ p hp with hold | ⟨hp1, old, hp2, holdsrc⟩
    · obtain ⟨hnd, hcat⟩ := hinv p hold
      refine ⟨hnd, ?_⟩
      intro cat hc
      obtain ⟨hmem, hpos⟩ := hcat cat hc
      refine ⟨?_, ?_⟩
      · show cat ∈ (agg_step st row).mapper.category_headers
        rw [hheq]
        exact map_task_headers_mono _ _ _ hmem
      · rw [hcnt]
        exact bumpCount_pos _ _ _ hpos
    · have hooldfacts : (keysOf old).Nodup ∧
          ∀ cat ∈ keysOf old,
            cat ∈ get_category_headers st.mapper ∧
            0 < (List.lookup cat st.counts_per_category).getD 0 := by
        rcases holdsrc with hin | rfl
        · exact hinv _ hin
        · exact ⟨List.nodup_nil, fun cat hc => absurd hc (List.not_mem_nil cat)⟩
      obtain ⟨holdnd, holdcat⟩ := hooldfacts
      refine ⟨?_, ?_⟩
      · rw [hp2]
        exact nodup_keys_innerBump _ _ _ holdnd
      · intro cat hc
        rw [hp2, keysOf_innerBump] at hc
        have hc2 : cat ∈ keysOf old ∨
            cat = (map_task st.mapper (effective_task row)).1.category_display := by
          by_cases hmem : (map_task st.mapper (effective_task row)).1.category_display
              ∈ keysOf old
          · rw [if_pos hmem] at hc
            exact Or.inl hc
          · rw [if_neg hmem] at hc
            rcases List.mem_append.mp hc with h1 | h1
            · exact Or.inl h1
            · exact Or.inr (List.mem_singleton.mp h1)
        rcases hc2 with hcold | rfl
        · obtain ⟨hmem, hpos⟩ := holdcat cat hcold
          refine ⟨?_, ?_⟩
          · show cat ∈ (agg_step st row).mapper.category_headers
            rw [hheq]
            exact map_task_headers_mono _ _ _ hmem
          · rw [hcnt]
            exact bumpCount_pos _ _ _ hpos
        · refine ⟨?_, ?_⟩
          · show (map_task st.mapper (effective_task row)).1.category_display
                ∈ (agg_step st row).mapper.category_headers
            rw [hheq]
            exact map_task_display_mem st.mapper (effective_task row) hv
          · rw [hcnt]
            exact bumpCount_self_pos _ _

theorem foldl_cellInv (rows : List ParsedRow) :
    ∀ st : AggState, ValuesInHeaders st.mapper → AggCellInv st →
      AggCellInv (rows.foldl agg_step st) := by
  induction rows with
  | nil => intro st _ h; exact h
  | cons row rest ih =>
    intro st hv h
    rw [List.foldl_cons]
    exact ih _ (agg_step_values st row hv) (agg_step_cellInv st row hv h)

/-- Summing default-zero lookups over a duplicate-free superset of the dict
keys recovers the sum of the dict values. -/
theorem sum_lookup_superset :
    ∀ (cats : List (String × Rat)) (hs : List String),
      (keysOf cats).Nodup → hs.Nodup → (∀ k ∈ keysOf cats, k ∈ hs) →
      (hs.map (fun h => (List.lookup h cats).getD 0)).sum
        = (cats.map (fun p => p.2)).sum := by
  intro cats
  induction cats with
  | nil =>
    intro hs _ _ _
    rw [show hs.map (fun h => (List.lookup h ([] : List (String × Rat))).getD 0)
        = hs.map (fun _ => (0 : Rat)) from List.map_congr_left (fun a _ => rfl)]
    simp
  | cons p cats ih =>
    intro hs hnd hhs hsub
    obtain ⟨k, v⟩ := p
    have hk : k ∈ hs := hsub k (by simp [keysOf])
    obtain ⟨l1, l2, rfl⟩ := List.append_of_mem hk
    rw [List.nodup_middle, List.nodup_cons] at hhs
    obtain ⟨hkout, hndrest⟩ := hhs
    rw [show keysOf ((k, v) :: cats) = k :: keysOf cats from rfl,
      List.nodup_cons] at hnd
    obtain ⟨hknot, hndc⟩ := hnd
    rw [List.map_append, List.sum_append, List.map_cons, List.sum_cons]
    have hfk : (List.lookup k ((k, v) :: cats)).getD 0 = v := by
      rw [lookup_cons_self]
      rfl
    have hmap1 : l1.map (fun h => (List.lookup h ((k, v) :: cats)).getD 0)
        = l1.map (fun h => (List.lookup h cats).getD 0) := by
      refine List.map_congr_left ?_
      intro a ha
      rw [lookup_cons_ne _ _ _ _
        (fun hc => hkout (List.mem_append_left _ (by rw [← hc]; exact ha)))]
    have hmap2 : l2.map (fun h => (List.lookup h ((k, v) :: cats)).getD 0)
        = l2.map (fun h => (List.lookup h cats).getD 0) := by
      refine List.map_congr_left ?_
      intro a ha
      rw [lookup_cons_ne _ _ _ _
        (fun hc => hkout (List.mem_append_right _ (by rw [← hc]; exact ha)))]
    rw [hmap1, hmap2, hfk, List.map_cons, List.sum_cons]
    have hsub2 : ∀ x ∈ keysOf cats, x ∈ l1 ++ l2 := by
      intro x hx
      have hxk : x ≠ k := fun hc => hknot (hc ▸ hx)
      have := hsub x (by
        rw [show keysOf ((k, v) :: cats) = k :: keysOf cats from rfl]
        exact List.mem_cons_of_mem k hx)
      rcases List.mem_append.mp this with h1 | h1
      · exact List.mem_append_left _ h1
      · rcases List.mem_cons.mp h1 with h2 | h2
        · exact absurd h2 hxk
        · exact List.mem_append_right _ h2
    have hih := ih (l1 ++ l2) hndc hndrest hsub2
    rw [List.map_append, List.sum_append] at hih
    rw [← hih]
    ring

/-! ## Claim C2 -/

/-- C2: no dollars are lost. In every summary row the category columns
(read once per distinct final header) sum to the row's `total` cell, because
every category a house accumulated was counted and so survives the
active-header filter and `organize_headers`. And each non-skipped input row
adds its amount (`total`, else `subtotal`, else 0) to exactly one
`(group, category)` cell of the accumulator, leaving every other cell
unchanged (occurrences of one category for one house are merged into that
single cell by the `+=`). The template headers are assumed not to collide
with the fixed `lot_block`, `plan` and `total` row keys. -/
theorem C2_no_dollars_lost (rows : List ParsedRow)
    (tmpl : Option (List String)) (st : AggState) (row : ParsedRow)
    (hgood : ∀ h ∈ (mkMapper tmpl).category_headers, GoodHeader h)
    (hrow : effective_task row ≠ "") :
    (∀ r ∈ (aggregate_data rows tmpl).1,
      row_category_sum r (aggregate_data rows tmpl).2.2 = getNum r "total") ∧
    cellOf (agg_step st row).aggregated_data (group_key row)
        ((map_task st.mapper (effective_task row)).1.category_display)
      = cellOf st.aggregated_data (group_key row)
          ((map_task st.mapper (effective_task row)).1.category_display)
        + amount_of row ∧
    ∀ (gk' : String × String) (cat' : String),
      ¬(gk' = group_key row ∧
        cat' = (map_task st.mapper (effective_task row)).1.category_display) →
      cellOf (agg_step st row).aggregated_data gk' cat'
        = cellOf st.aggregated_data gk' cat' := by
  refine ⟨?_, ?_, ?_⟩
  · intro r hr
    have hfh : ∀ h ∈ (aggregate_data rows tmpl).2.2, GoodHeader h :=
      final_headers_good rows tmpl hgood
    have hinv : AggCellInv (rows.foldl agg_step (initAggState tmpl)) :=
      foldl_cellInv rows (initAggState tmpl) (mkMapper_values tmpl)
        (fun p hp => absurd hp (List.not_mem_nil p))
    simp only [aggregate_data] at hr hfh ⊢
    rw [List.mem_insertionSort] at hr
    obtain ⟨p, hp, rfl⟩ := List.mem_map.mp hr
    obtain ⟨hnd, hcat⟩ := hinv p hp
    unfold row_category_sum
    have hsubset : ∀ k ∈ keysOf p.2,
        k ∈ (organize_headers
          ((get_category_headers (rows.foldl agg_step (initAggState tmpl)).mapper).filter
            (fun h => ((List.lookup h
              (rows.foldl agg_step (initAggState tmpl)).counts_per_category).getD 0) > 0))).dedup := by
      intro k hkmem
      obtain ⟨hhead, hpos⟩ := hcat k hkmem
      rw [List.mem_dedup]
      refine mem_organize _ _ ?_
      exact List.mem_filter.mpr ⟨hhead, decide_eq_true hpos⟩
    have hcongr : (organize_headers
          ((get_category_headers (rows.foldl agg_step (initAggState tmpl)).mapper).filter
            (fun h => ((List.lookup h
              (rows.foldl agg_step (initAggState tmpl)).counts_per_category).getD 0) > 0))).dedup.map
          (fun h => getNum (build_summary_row
            (organize_headers
              ((get_category_headers (rows.foldl agg_step (initAggState tmpl)).mapper).filter
                (fun h => ((List.lookup h
                  (rows.foldl agg_step (initAggState tmpl)).counts_per_category).getD 0) > 0)))
            p.1 p.2) h)
        = (organize_headers
          ((get_category_headers (rows.foldl agg_step (initAggState tmpl)).mapper).filter
            (fun h => ((List.lookup h
              (rows.foldl agg_step (initAggState tmpl)).counts_per_category).getD 0) > 0))).dedup.map
          (fun h => (List.lookup h p.2).getD 0) := by
      refine List.map_congr_left ?_
      intro h hh
      have hmem := List.mem_dedup.mp hh
      exact getNum_buildRow_header _ p.1 p.2 h hmem (hfh h hmem).2.2
    rw [hcongr]
    rw [sum_lookup_superset p.2 _ hnd (List.nodup_dedup _) hsubset]
    exact (getNum_buildRow_total _ p.1 p.2).symm
  · rw [agg_step_aggData st row hrow]
    exact cellOf_outerBump_self _ _ _ _
  · intro gk' cat' hne
    rw [agg_step_aggData st row hrow]
    exact cellOf_outerBump_ne _ _ _ _ _ _ hne

/-- Witness for C2: two rows of one house mapping to two template
categories; the single summary row's category columns sum to its total, and
the step on the first row feeds exactly its amount into one cell. -/
theorem C2_witness :
    (∀ h ∈ (mkMapper none).category_headers, GoodHeader h) ∧
    effective_task c2_row ≠ "" ∧
    row_category_sum ((aggregate_data c2_rows none).1.headD [])
        (aggregate_data c2_rows none).2.2
      = getNum ((aggregate_data c2_rows none).1.headD []) "total" ∧
    cellOf (agg_step (initAggState none) c2_row).aggregated_data
        (group_key c2_row)
        ((map_task (initAggState none).mapper (effective_task c2_row)).1.category_display)
      = cellOf (initAggState none).aggregated_data (group_key c2_row)
          ((map_task (initAggState none).mapper (effective_task c2_row)).1.category_display)
        + amount_of c2_row := by
  have h := C2_no_dollars_lost c2_rows none (initAggState none) c2_row
    (by decide) (by decide)
  refine ⟨by decide, by decide, ?_, h.2.1⟩
  apply h.1
  rcases hl : (aggregate_data c2_rows none).1 with _ | ⟨a, rest⟩
  · have h1 : (aggregate_data c2_rows none).1.length = 1 := rfl
    rw [hl] at h1
    exact absurd h1 (by decide)
  · exact List.mem_cons_self a rest

end RCW
